import Mathlib

/-!
# feishu2mp: the WeChat HTML restyling pipeline and the web handlers

A shallow embedding of the text-rewriting passes of `WeChatHTMLConverter`
(`core/wechat_html.go`), of the image handling of `convertHandler`
(`web/convert_handler.go`) and of the file branch of `downloadHandler`
(`web/download.go`).

* Go strings are modelled as lists of Unicode code points (`Str`).  All inputs
  considered are valid UTF-8, where prefix, substring and replacement operations
  on bytes and on code points agree.
* Go maps are modelled as association lists; the order of the list is the
  iteration order chosen by the runtime.
* Calls that leave the repository's sources (`url.Parse`, `json.Unmarshal`, file reads,
  `base64`, `archive/zip`, the Feishu client, the Markdown formatter) are parameters.
* `regexp` (RE2 syntax, leftmost-first matching) is modelled by a backtracking
  matcher over a small regular-expression syntax `Re` that covers every pattern
  of the source: all repetitions in the source are repetitions of a single
  character class.
-/

namespace Feishu2mp

/-- Go strings, as lists of code points. -/
abbrev Str := List Char

/-! ## `strings` and `html` helpers -/

/-- The double quote character. -/
def dq : Char := Char.ofNat 34

/-- The apostrophe character. -/
def sq : Char := Char.ofNat 39

/-- Go `unicode.IsSpace`: the Unicode White_Space property, used by `strings.TrimSpace`. -/
def isSpace (c : Char) : Bool :=
  c.toNat == 9 || c.toNat == 10 || c.toNat == 11 || c.toNat == 12 || c.toNat == 13 ||
  c.toNat == 32 || c.toNat == 0x85 || c.toNat == 0xA0 || c.toNat == 0x1680 ||
  (0x2000 ≤ c.toNat && c.toNat ≤ 0x200A) || c.toNat == 0x2028 || c.toNat == 0x2029 ||
  c.toNat == 0x202F || c.toNat == 0x205F || c.toNat == 0x3000

/-- Go `strings.TrimSpace`: drop leading and trailing white space. -/
def trimSpace (s : Str) : Str :=
  (s.dropWhile isSpace).rdropWhile isSpace

/-- Go `strings.HasPrefix`. -/
def hasPrefix (s pre : Str) : Bool := pre.isPrefixOf s

/-- Go `strings.HasSuffix`. -/
def hasSuffix (s suf : Str) : Bool := suf.isSuffixOf s

/-- Go `strings.Contains`. -/
def containsStr (sub : Str) : Str → Bool
  | [] => sub.isEmpty
  | c :: cs => sub.isPrefixOf (c :: cs) || containsStr sub cs

/-- Go `strings.Replace(s, old, new, 1)`: replace the first occurrence of `old`. -/
def replaceFirst (old new : Str) : Str → Str
  | [] => if old.isEmpty then new else []
  | c :: cs =>
    if old.isPrefixOf (c :: cs) then new ++ (c :: cs).drop old.length
    else c :: replaceFirst old new cs

/-- Lower-casing of one character as `strings.ToLower` does it, on the ASCII range
(the only range that can produce the letters of `style=`). -/
def toLowerChar (c : Char) : Char :=
  if 65 ≤ c.toNat ∧ c.toNat ≤ 90 then Char.ofNat (c.toNat + 32) else c

/-- Go `strings.ToLower`. -/
def toLower (s : Str) : Str := s.map toLowerChar

/-- Go `html.EscapeString`: escapes `&`, the apostrophe, `<`, `>` and the double quote. -/
def escapeChar (c : Char) : Str :=
  if c = '&' then "&amp;".toList
  else if c = sq then "&#39;".toList
  else if c = '<' then "&lt;".toList
  else if c = '>' then "&gt;".toList
  else if c = dq then "&#34;".toList
  else [c]

/-- Go `html.EscapeString`. -/
def escapeString : Str → Str
  | [] => []
  | c :: cs => escapeChar c ++ escapeString cs

/-! ## Regular expressions -/

/-- Captured groups: group number and captured text, most recent first. -/
abbrev Caps := List (Nat × Str)

/-- The regular-expression syntax needed by the patterns of the source. -/
inductive Re where
  | eps : Re
  | cls (p : Char → Bool) : Re
  | seq (a b : Re) : Re
  | alt (a b : Re) : Re
  | star (p : Char → Bool) (greedy : Bool) : Re
  | grp (i : Nat) (r : Re) : Re

/-- Repetition of a character class: greedy tries the longest run first, lazy the
shortest; `k` is the rest of the match. -/
def starRun {α : Type} (p : Char → Bool) (greedy : Bool) : Str → (Str → Option α) → Option α
  | [], k => k []
  | c :: cs, k =>
    if p c then
      if greedy then
        match starRun p greedy cs k with
        | some r => some r
        | none => k (c :: cs)
      else
        match k (c :: cs) with
        | some r => some r
        | none => starRun p greedy cs k
    else k (c :: cs)

/-- Backtracking matcher: the first success in priority order, which is the match
Go reports at this position (leftmost-first semantics). -/
def Re.run {α : Type} : Re → Str → Caps → (Str → Caps → Option α) → Option α
  | .eps, s, caps, k => k s caps
  | .cls _, [], _, _ => none
  | .cls p, c :: cs, caps, k => if p c then k cs caps else none
  | .seq a b, s, caps, k => a.run s caps (fun s1 caps1 => b.run s1 caps1 k)
  | .alt a b, s, caps, k =>
    match a.run s caps k with
    | some r => some r
    | none => b.run s caps k
  | .star p g, s, caps, k => starRun p g s (fun s1 => k s1 caps)
  | .grp i r, s, caps, k =>
    r.run s caps (fun s1 caps1 => k s1 ((i, s.take (s.length - s1.length)) :: caps1))

/-- A match: the matched text, the text after it, and the captured groups. -/
structure Match where
  text : Str
  rest : Str
  caps : Caps
deriving DecidableEq, Repr

/-- Match the pattern at the start of `s`. -/
def Re.exec (re : Re) (s : Str) : Option Match :=
  re.run s [] (fun s1 caps => some ⟨s.take (s.length - s1.length), s1, caps⟩)

/-- Leftmost match anywhere in `s`, as `FindStringSubmatch` reports it. -/
def Re.find (re : Re) : Str → Option Match
  | [] => re.exec []
  | c :: cs =>
    match re.exec (c :: cs) with
    | some m => some m
    | none => re.find cs

/-- Go `ReplaceAllStringFunc` scanning loop: copy up to the leftmost match, emit the
replacement, continue after the match.  The first argument counts the characters of the
current match still to be skipped.  Every pattern of the source consumes at least one
character, so Go's special treatment of empty matches is not modelled: an empty match
is treated as no match. -/
def replaceAllAux (re : Re) (repl : Match → Str) : Nat → Str → Str
  | _, [] => []
  | n + 1, _ :: cs => replaceAllAux re repl n cs
  | 0, c :: cs =>
    match re.exec (c :: cs) with
    | none => c :: replaceAllAux re repl 0 cs
    | some m =>
      match m.text.length with
      | 0 => c :: replaceAllAux re repl 0 cs
      | n + 1 => repl m ++ replaceAllAux re repl n cs

/-- Go `(*Regexp).ReplaceAllStringFunc`, the function receiving the match. -/
def replaceAllFunc (re : Re) (repl : Match → Str) (s : Str) : Str :=
  replaceAllAux re repl 0 s

/-- Characters allowed in a `$name` reference of a replacement template (ASCII range
of Go's letter, digit or underscore test). -/
def isNameChar (c : Char) : Bool :=
  c.isAlphanum || c = '_'

/-- Text a template reference `$name` expands to: a number without leading zero is a
group index (`0` is the whole match), anything else a group name; the patterns of the
source have no named groups, and an unset or unknown group expands to nothing. -/
def groupText (m : Match) (name : Str) : Str :=
  if name.all Char.isDigit ∧ ¬ (name.head? = some '0' ∧ 1 < name.length) then
    match name.foldl (fun n c => 10 * n + (c.toNat - 48)) 0 with
    | 0 => m.text
    | n + 1 => (m.caps.lookup (n + 1)).getD []
  else []

/-- Go `regexp.extract`: the reference after a `$`, as `name` or `{name}`; returns the
name and the number of template characters it occupies. -/
def extract (t : Str) : Option (Str × Nat) :=
  match t with
  | [] => none
  | c :: cs =>
    if c = Char.ofNat 123 then
      let name := cs.takeWhile isNameChar
      if name.isEmpty then none
      else if (cs.drop name.length).head? = some (Char.ofNat 125) then some (name, name.length + 2)
      else none
    else
      let name := (c :: cs).takeWhile isNameChar
      if name.isEmpty then none else some (name, name.length)

/-- Go `(*Regexp).expand`: substitute `$` references in a replacement template.  The
first argument counts template characters still to be skipped. -/
def expandAux (m : Match) : Nat → Str → Str
  | _, [] => []
  | n + 1, _ :: t => expandAux m n t
  | 0, c :: t =>
    if c = '$' then
      match t with
      | [] => ['$']
      | d :: _ =>
        if d = '$' then '$' :: expandAux m 1 t
        else
          match extract t with
          | none => '$' :: expandAux m 0 t
          | some (name, len) => groupText m name ++ expandAux m len t
    else c :: expandAux m 0 t

/-- Go `(*Regexp).ReplaceAllString`: every match replaced by the expanded template. -/
def replaceAllString (re : Re) (template : Str) (s : Str) : Str :=
  replaceAllFunc re (fun m => expandAux m 0 template) s

/-! ### Character classes and literals -/

/-- Perl class `\s` of RE2: tab, newline, form feed, carriage return, space. -/
def reSpace (c : Char) : Bool :=
  c = '\t' || c = '\n' || c.toNat == 12 || c = '\r' || c = ' '

/-- Case folding under the `(?i)` flag, for a pattern character `a` in the ASCII range:
an ASCII letter matches both of its cases, `k` also matches the Kelvin sign and `s` the
long s (their simple-folding orbits), every other ASCII character matches itself.  All
fixed patterns of the source are ASCII; a pattern character outside ASCII is only matched
with itself here, so statements over a variable tag name assume an ASCII name
(`isTagName`). -/
def foldEq (a b : Char) : Bool :=
  a = b || (toLowerChar a).isLower && toLowerChar a = toLowerChar b ||
  (toLowerChar a = 'k' && b.toNat == 0x212A) || (toLowerChar a = 's' && b.toNat == 0x17F)

/-- A literal character. -/
def Re.chr (c : Char) : Re := .cls (fun x => x = c)

/-- A literal character under `(?i)`. -/
def Re.chrI (c : Char) : Re := .cls (foldEq c)

/-- A literal string. -/
def Re.lit : Str → Re
  | [] => .eps
  | c :: cs => .seq (.chr c) (Re.lit cs)

/-- A literal string under `(?i)`. -/
def Re.litI : Str → Re
  | [] => .eps
  | c :: cs => .seq (.chrI c) (Re.litI cs)

/-- Sequence of several expressions. -/
def Re.cat : List Re → Re
  | [] => .eps
  | [r] => r
  | r :: rs => .seq r (Re.cat rs)

/-- `x?`: prefer `x`, else nothing. -/
def Re.opt (r : Re) : Re := .alt r .eps

/-- Any character but `>`: `[^>]`. -/
def notGt (c : Char) : Bool := c != '>'

/-- Neither quote: `[^"']`. -/
def notQuote (c : Char) : Bool := c != dq && c != sq

/-- Either quote: `["']`. -/
def isQuote (c : Char) : Bool := c = dq || c = sq

/-- Any character: `[\s\S]`. -/
def anyChar (_ : Char) : Bool := true

/-! ## The converter (`core/wechat_html.go`) -/

/-- The converter: image map (token to URL or data URI), tag styles, pre-code style. -/
structure WeChatHTMLConverter where
  imageURLs : List (Str × Str)
  styles : List (Str × Str)
  preCode : Str
deriving DecidableEq

/-- Theme configuration read from JSON; `Tags` is `none` when the key is absent or null. -/
structure ThemeConfig where
  Tags : Option (List (Str × Str))
  PreCode : Str
deriving DecidableEq

/-- The built-in tag styles. -/
def defaultTagStyles : List (Str × Str) :=
  [ ("p".toList, "margin: 12px 0; text-align: justify; word-wrap: break-word; word-break: break-all; line-height: 1.8; font-size: 17px; color: #333333;".toList),
    ("h1".toList, "font-size: 24px; font-weight: bold; line-height: 1.4; margin: 20px 0 15px; color: #333333;".toList),
    ("h2".toList, "font-size: 22px; font-weight: bold; line-height: 1.4; margin: 18px 0 12px; color: #333333;".toList),
    ("h3".toList, "font-size: 20px; font-weight: bold; line-height: 1.4; margin: 16px 0 10px; color: #333333;".toList),
    ("h4".toList, "font-size: 18px; font-weight: bold; line-height: 1.4; margin: 14px 0 8px; color: #333333;".toList),
    ("h5".toList, "font-size: 17px; font-weight: bold; line-height: 1.4; margin: 12px 0 6px; color: #333333;".toList),
    ("h6".toList, "font-size: 16px; font-weight: bold; line-height: 1.4; margin: 10px 0 4px; color: #333333;".toList),
    ("ul".toList, "margin: 12px 0; padding-left: 30px; list-style-type: disc;".toList),
    ("ol".toList, "margin: 12px 0; padding-left: 30px;".toList),
    ("li".toList, "margin: 8px 0; line-height: 1.8; font-size: 17px; color: #333333;".toList),
    ("blockquote".toList, "margin: 15px 0; padding: 10px 15px; border-left: 4px solid #e6e6e6; background-color: #f9f9f9; color: #666666; font-size: 16px; line-height: 1.8;".toList),
    ("pre".toList, "background-color: #f5f5f5; padding: 15px; border-radius: 5px; overflow-x: auto; margin: 15px 0; font-size: 14px; line-height: 1.6; color: #333333;".toList),
    ("code".toList, "background-color: #f5f5f5; padding: 2px 6px; border-radius: 3px; font-family: 'Consolas', 'Monaco', 'Courier New', monospace; font-size: 14px; color: #e83e8c;".toList),
    ("img".toList, "max-width: 100%; height: auto; display: block; margin: 15px auto; border-radius: 5px;".toList),
    ("a".toList, "color: #576b95; text-decoration: none; border-bottom: 1px solid #576b95;".toList),
    ("hr".toList, "border: none; border-top: 1px solid #eaeaea; margin: 20px 0;".toList),
    ("strong".toList, "font-weight: bold; color: #333333;".toList),
    ("em".toList, "font-style: italic;".toList),
    ("u".toList, "text-decoration: underline;".toList),
    ("span".toList, "font-size: 17px; line-height: 1.8; color: #333333;".toList),
    ("table".toList, "width: 100%; border-collapse: collapse; margin: 15px 0; font-size: 16px;".toList),
    ("th".toList, "border: 1px solid #ddd; padding: 10px; text-align: left; background-color: #f5f5f5; font-weight: bold;".toList),
    ("td".toList, "border: 1px solid #ddd; padding: 10px; text-align: left;".toList),
    ("figure".toList, "margin: 15px 0;".toList),
    ("figcaption".toList, "text-align: center; color: #888; font-size: 0.8em; margin-top: 5px;".toList) ]

/-- The built-in style of `code` inside `pre`. -/
def defaultPreCodeStyle : Str :=
  "background-color: transparent; padding: 0; font-family: 'Consolas', 'Monaco', 'Courier New', monospace; font-size: 14px; color: #333333;".toList

/-- `NewWeChatHTMLConverter`. -/
def NewWeChatHTMLConverter : WeChatHTMLConverter :=
  ⟨[], defaultTagStyles, defaultPreCodeStyle⟩

/-- The part of `LoadThemeFromFile` after a successful read and parse: a non-empty
`tags` map replaces the tag styles, a non-blank `pre_code` replaces the pre-code style. -/
def applyTheme (w : WeChatHTMLConverter) (cfg : ThemeConfig) : WeChatHTMLConverter :=
  let w1 : WeChatHTMLConverter :=
    match cfg.Tags with
    | some tags => if 0 < tags.length then { w with styles := tags } else w
    | none => w
  if trimSpace cfg.PreCode ≠ [] then { w1 with preCode := trimSpace cfg.PreCode } else w1

/-- `LoadThemeFromFile`; reading the file and `json.Unmarshal` are parameters.  Returns
the error, or the converter after the load. -/
def LoadThemeFromFile {ε : Type} (readFile : Str → Except ε Str)
    (unmarshal : Str → Except ε ThemeConfig) (w : WeChatHTMLConverter) (path : Str) :
    Except ε WeChatHTMLConverter :=
  if path = [] then .ok w
  else
    match readFile path with
    | .error e => .error e
    | .ok bs =>
      match unmarshal bs with
      | .error e => .error e
      | .ok cfg => .ok (applyTheme w cfg)

/-- `normalizeImageURL`. -/
def normalizeImageURL (imgURL0 : Str) : Str :=
  let imgURL := trimSpace imgURL0
  if hasPrefix imgURL "data:".toList then imgURL
  else if hasPrefix imgURL "https://".toList then imgURL
  else if hasPrefix imgURL "http://".toList then
    replaceFirst "http://".toList "https://".toList imgURL
  else if hasPrefix imgURL "//".toList then "https:".toList ++ imgURL
  else if hasPrefix imgURL "/".toList then imgURL
  else imgURL

/-- The pattern `<img[^>]*src=["']([^"']+)["'][^>]*>`. -/
def imgPattern : Re :=
  .cat [.lit "<img".toList, .star notGt true, .lit "src=".toList, .cls isQuote,
        .grp 1 (.seq (.cls notQuote) (.star notQuote true)), .cls isQuote,
        .star notGt true, .chr '>']

/-- The pattern `src=["']([^"']+)["']`. -/
def srcMatch : Re :=
  .cat [.lit "src=".toList, .cls isQuote,
        .grp 1 (.seq (.cls notQuote) (.star notQuote true)), .cls isQuote]

/-- `processImages`. -/
def processImages (w : WeChatHTMLConverter) (htmlStr : Str) : Str :=
  replaceAllFunc imgPattern (fun m =>
    match srcMatch.find m.text with
    | none => m.text
    | some srcAttr =>
      let originalSrc := (srcAttr.caps.lookup 1).getD []
      match w.imageURLs.lookup originalSrc with
      | some httpsURL => replaceFirst originalSrc httpsURL m.text
      | none => replaceFirst originalSrc (normalizeImageURL originalSrc) m.text) htmlStr

/-- The pattern `(?i)<style[^>]*>[\s\S]*?</style>`. -/
def stylePattern : Re :=
  .cat [.litI "<style".toList, .star notGt true, .chrI '>', .star anyChar false,
        .litI "</style>".toList]

/-- The pattern `(?i)<link[^>]*>`. -/
def linkPattern : Re :=
  .cat [.litI "<link".toList, .star notGt true, .chrI '>']

/-- The pattern `(?i)<script[^>]*>[\s\S]*?</script>`. -/
def scriptPattern : Re :=
  .cat [.litI "<script".toList, .star notGt true, .chrI '>', .star anyChar false,
        .litI "</script>".toList]

/-- `removeStyleLinkScriptTags`. -/
def removeStyleLinkScriptTags (htmlStr : Str) : Str :=
  let htmlStr := replaceAllString stylePattern [] htmlStr
  let htmlStr := replaceAllString linkPattern [] htmlStr
  let htmlStr := replaceAllString scriptPattern [] htmlStr
  htmlStr

/-- The pattern `(?i)\s*class=["'][^"']*["']`. -/
def classPattern : Re :=
  .cat [.star reSpace true, .litI "class=".toList, .cls isQuote, .star notQuote true,
        .cls isQuote]

/-- The pattern `(?i)\s*id=["'][^"']*["']`. -/
def idPattern : Re :=
  .cat [.star reSpace true, .litI "id=".toList, .cls isQuote, .star notQuote true,
        .cls isQuote]

/-- Any character but `=`: `[^=]`. -/
def notEq (c : Char) : Bool := c != '='

/-- The pattern `(?i)\s*data-[^=]*=["'][^"']*["']`. -/
def dataPattern : Re :=
  .cat [.star reSpace true, .litI "data-".toList, .star notEq true, .chrI '=',
        .cls isQuote, .star notQuote true, .cls isQuote]

/-- `removeClassAndID`. -/
def removeClassAndID (htmlStr : Str) : Str :=
  let htmlStr := replaceAllString classPattern [] htmlStr
  let htmlStr := replaceAllString idPattern [] htmlStr
  let htmlStr := replaceAllString dataPattern [] htmlStr
  htmlStr

/-- The pattern `(?i)<T(\s[^>]*)?>` for the quoted tag name `T`. -/
def tagPattern (tagName : Str) : Re :=
  .cat [.chrI '<', .litI tagName, .opt (.grp 1 (.seq (.cls reSpace) (.star notGt true))),
        .chrI '>']

/-- The pattern `(?i)(style=["'])([^"']*)(["'])`. -/
def styleAttrPattern : Re :=
  .cat [.grp 1 (.seq (.litI "style=".toList) (.cls isQuote)), .grp 2 (.star notQuote true),
        .grp 3 (.cls isQuote)]

/-- `addInlineStyleToTag`. -/
def addInlineStyleToTag (htmlStr tagName style : Str) : Str :=
  replaceAllFunc (tagPattern tagName) (fun m =>
    if containsStr "style=".toList (toLower m.text) then
      replaceAllString styleAttrPattern ("$1".toList ++ style ++ " $2$3".toList) m.text
    else if hasSuffix (trimSpace m.text) "/>".toList then
      replaceFirst "/>".toList
        (" style=\"".toList ++ escapeString style ++ "\" />".toList) m.text
    else
      replaceFirst ">".toList
        (" style=\"".toList ++ escapeString style ++ "\">".toList) m.text) htmlStr

/-- The pattern `(?i)<pre[^>]*>([\s\S]*?)(<code[^>]*>)([\s\S]*?)(</code>)`. -/
def preCodePattern : Re :=
  .cat [.litI "<pre".toList, .star notGt true, .chrI '>', .grp 1 (.star anyChar false),
        .grp 2 (.cat [.litI "<code".toList, .star notGt true, .chrI '>']),
        .grp 3 (.star anyChar false), .grp 4 (.litI "</code>".toList)]

/-- The pattern `(?i)(<code)([^>]*?)(>)`. -/
def codePattern : Re :=
  .cat [.grp 1 (.litI "<code".toList), .grp 2 (.star notGt false), .grp 3 (.chrI '>')]

/-- `addInlineStyleToPreCode`. -/
def addInlineStyleToPreCode (htmlStr style : Str) : Str :=
  replaceAllFunc preCodePattern (fun m =>
    replaceAllString codePattern
      ("$1$2 style=\"".toList ++ escapeString style ++ "\"$3".toList) m.text) htmlStr

/-- `convertToInlineStyles`: one tag-level pass per theme entry, in the iteration order
of the map, then the pre-code pass. -/
def convertToInlineStyles (w : WeChatHTMLConverter) (htmlStr : Str) : Str :=
  let htmlStr := w.styles.foldl (fun h (e : Str × Str) =>
    if e.1 = "pre_code".toList then h
    else if trimSpace e.2 = [] then h
    else addInlineStyleToTag h e.1 e.2) htmlStr
  if trimSpace w.preCode ≠ [] then addInlineStyleToPreCode htmlStr w.preCode else htmlStr

/-- The callback that `addInlineStyleToTag` passes to `ReplaceAllStringFunc`, as a function
of the text of the match: the same three branches, named so that they can be reasoned
about on their own (`addInlineStyleToTag_eq`). -/
def styleTagText (style text : Str) : Str :=
  if containsStr "style=".toList (toLower text) then
    replaceAllString styleAttrPattern ("$1".toList ++ style ++ " $2$3".toList) text
  else if hasSuffix (trimSpace text) "/>".toList then
    replaceFirst "/>".toList
      (" style=\"".toList ++ escapeString style ++ "\" />".toList) text
  else
    replaceFirst ">".toList
      (" style=\"".toList ++ escapeString style ++ "\">".toList) text

/-- The body of the loop of `convertToInlineStyles` for one theme entry `(tag, style)`,
named so that it can be reasoned about on its own (`convertToInlineStyles_eq`). -/
def tagPass (h : Str) (e : Str × Str) : Str :=
  if e.1 = "pre_code".toList then h
  else if trimSpace e.2 = [] then h
  else addInlineStyleToTag h e.1 e.2

/-- The pattern `>\s+<`. -/
def tagGapPattern : Re :=
  .cat [.chr '>', .cls reSpace, .star reSpace true, .chr '<']

/-- The pattern `\n{3,}`. -/
def blankLinesPattern : Re :=
  .cat [.chr '\n', .chr '\n', .chr '\n', .star (fun c => c = '\n') true]

/-- `cleanupWhitespace`. -/
def cleanupWhitespace (htmlStr : Str) : Str :=
  let htmlStr := replaceAllString tagGapPattern "><".toList htmlStr
  let htmlStr := replaceAllString blankLinesPattern "\n\n".toList htmlStr
  trimSpace htmlStr

/-- Errors of `ValidateHTTPSURL`. -/
inductive URLError where
  | invalidURL
  | noHost
deriving DecidableEq, Repr

/-- The fields of Go `url.URL` that `ValidateHTTPSURL` reads or writes; `Other` stands
for the remaining fields. -/
structure URL where
  Scheme : Str
  Host : Str
  Other : Str
deriving DecidableEq

/-- `ValidateHTTPSURL`; `url.Parse` and `(*URL).String` of the standard library are
parameters. -/
def ValidateHTTPSURL (parse : Str → Option URL) (urlString : URL → Str) (rawURL0 : Str) :
    Except URLError Str :=
  let rawURL := trimSpace rawURL0
  if hasPrefix rawURL "https://".toList then .ok rawURL
  else if hasPrefix rawURL "http://".toList then
    .ok (replaceFirst "http://".toList "https://".toList rawURL)
  else if hasPrefix rawURL "//".toList then .ok ("https:".toList ++ rawURL)
  else
    match parse rawURL with
    | none => .error .invalidURL
    | some parsedURL =>
      if parsedURL.Scheme = [] ∧ parsedURL.Host = [] then .error .noHost
      else
        let u1 : URL :=
          if parsedURL.Scheme = [] then { parsedURL with Scheme := "https".toList }
          else parsedURL
        let u2 : URL :=
          if u1.Scheme = "http".toList then { u1 with Scheme := "https".toList } else u1
        .ok (urlString u2)

/-! ## The web handlers (`web/convert_handler.go`, `web/download.go`) -/

/-- Raw bytes, each a number below 256. -/
abbrev Bytes := List Nat

/-- `SetImageURL`: assignment `w.imageURLs[token] = imageURL` in the image map. -/
def SetImageURL (w : WeChatHTMLConverter) (token imageURL : Str) : WeChatHTMLConverter :=
  { w with imageURLs := (token, imageURL) :: w.imageURLs.filter (fun e => e.1 ≠ token) }

/-- The loop of Go `filepath.Ext` over the reversed path: stop at a separator, return
from the first dot met (the last dot of the last path element). -/
def extAux : Str → Str → Str
  | [], _ => []
  | c :: rest, acc =>
    if c = '/' then [] else if c = '.' then '.' :: acc else extAux rest (c :: acc)

/-- Go `filepath.Ext`, with the Unix path separator. -/
def filepathExt (path : Str) : Str := extAux path.reverse []

/-- Lower-casing of one character by `strings.ToLower`, exact on every code point whose
lower case is an ASCII letter: `A` to `Z`, U+0130 (to `i`) and the Kelvin sign U+212A
(to `k`).  Other code points cannot produce the letters of a recognised extension. -/
def toLowerCharU (c : Char) : Char :=
  if c.toNat = 0x130 then 'i' else if c.toNat = 0x212A then 'k' else toLowerChar c

/-- Go `strings.ToLower`, as used on the file extension. -/
def toLowerU (s : Str) : Str := s.map toLowerCharU

/-- The bytes of the string `"\x89PNG\r\n\x1a\n"`. -/
def pngSignature : Bytes := [0x89, 0x50, 0x4E, 0x47, 0x0D, 0x0A, 0x1A, 0x0A]

/-- The bytes of the string `"GIF8"`. -/
def gif8 : Bytes := [0x47, 0x49, 0x46, 0x38]

/-- The MIME switch, the same code in `convertHandler` (lines 122-147) and in the JSON
branch of `downloadHandler` (lines 105-130): by lower-cased extension of the local name
first, by the leading bytes of the content otherwise, `image/png` by default. -/
def detectMIME (localLink : Str) (rawImage : Bytes) : Str :=
  let ext := toLowerU (filepathExt localLink)
  if ext = ".jpg".toList ∨ ext = ".jpeg".toList then "image/jpeg".toList
  else if ext = ".png".toList then "image/png".toList
  else if ext = ".gif".toList then "image/gif".toList
  else if ext = ".webp".toList then "image/webp".toList
  else if ext = ".svg".toList then "image/svg+xml".toList
  else if ext = ".bmp".toList then "image/bmp".toList
  else if 4 < rawImage.length ∧ rawImage.getD 0 0 = 0xFF ∧ rawImage.getD 1 0 = 0xD8 then
    "image/jpeg".toList
  else if 8 < rawImage.length ∧ rawImage.take 8 = pngSignature then "image/png".toList
  else if 4 < rawImage.length ∧ rawImage.take 4 = gif8 then "image/gif".toList
  else "image/png".toList

/-- The body of the image loop of `convertHandler` after a successful download: the MIME
type is detected and the token is registered with a data URI, in the branch for payloads
below 500 KiB and in the branch for larger ones (where logging is the only difference).
`base64.StdEncoding.EncodeToString` is a parameter. -/
def convertHandlerImage (base64 : Bytes → Str) (w : WeChatHTMLConverter)
    (imgToken localLink : Str) (rawImage : Bytes) : WeChatHTMLConverter :=
  let mimeType := detectMIME localLink rawImage
  if rawImage.length < 500 * 1024 then
    let base64Data := base64 rawImage
    let dataURI := "data:".toList ++ mimeType ++ ";base64,".toList ++ base64Data
    SetImageURL w imgToken dataURI
  else
    let base64Data := base64 rawImage
    let dataURI := "data:".toList ++ mimeType ++ ";base64,".toList ++ base64Data
    SetImageURL w imgToken dataURI

/-- The image loop of `convertHandler`: a failed download skips the token.
`client.DownloadImageRaw` is a parameter returning the local name and the raw bytes. -/
def convertHandlerImages (download : Str → Option (Str × Bytes)) (base64 : Bytes → Str)
    (w : WeChatHTMLConverter) (imgTokens : List Str) : WeChatHTMLConverter :=
  imgTokens.foldl (fun w imgToken =>
    match download imgToken with
    | none => w
    | some (localLink, rawImage) => convertHandlerImage base64 w imgToken localLink rawImage)
    w

/-- The data URI built in the JSON branch of `downloadHandler` (lines 105-134). -/
def downloadHandlerDataURI (base64 : Bytes → Str) (localLink : Str) (rawImage : Bytes) :
    Str :=
  let mimeType := detectMIME localLink rawImage
  let base64Data := base64 rawImage
  "data:".toList ++ mimeType ++ ";base64,".toList ++ base64Data

/-- The content of an archive entry or file: raw image bytes, or text standing for its
UTF-8 bytes. -/
inductive Payload where
  | raw (b : Bytes)
  | text (s : Str)
deriving DecidableEq

/-- The outcome of the file branch of `downloadHandler`: a bare file, a zip archive
(both with the name of the `Content-Disposition` header), or a 500 response. -/
inductive Response where
  | file (name : Str) (content : Str)
  | archive (name : Str) (entries : List (Str × Payload))
  | error (msg : Str)
deriving DecidableEq

/-- The calls into `archive/zip` that can return an error: `Create` for a name, `Write`
of a payload, `Close`.  The entries written so far are kept by the handler model. -/
structure ZipLib where
  createOK : Str → Bool
  writeOK : Payload → Bool
  closeOK : Bool

/-- The image loop of the file branch of `downloadHandler` (lines 159-179): for each
token in order, download, rewrite the first occurrence of the token in the Markdown to
the local name, and write one archive entry; any error ends the request. -/
def bundleLoop (zip : ZipLib) (download : Str → Option (Str × Bytes)) :
    List Str → Str → List (Str × Payload) → Except Str (Str × List (Str × Payload))
  | [], markdown, entries => .ok (markdown, entries)
  | imgToken :: rest, markdown, entries =>
    match download imgToken with
    | none => .error "Internal error: client.DownloadImageRaw".toList
    | some (localLink, rawImage) =>
      let markdown := replaceFirst imgToken localLink markdown
      if zip.createOK localLink = false then .error "Internal error: zipWriter.Create".toList
      else if zip.writeOK (.raw rawImage) = false then
        .error "Internal error: zipWriter.Create.Write".toList
      else bundleLoop zip download rest markdown (entries ++ [(localLink, .raw rawImage)])

/-- The file branch of `downloadHandler` (lines 156-214) from the parsed Markdown and
the image tokens on; `client.DownloadImageRaw`, the formatter `FormatStr` of the
Markdown engine and the fallible zip calls are parameters. -/
def downloadBundle (zip : ZipLib) (download : Str → Option (Str × Bytes))
    (formatStr : Str → Str) (docToken markdown : Str) (imgTokens : List Str) : Response :=
  match bundleLoop zip download imgTokens markdown [] with
  | .error e => .error e
  | .ok (markdown, entries) =>
    let result := formatStr markdown
    if 0 < imgTokens.length then
      let mdName := docToken ++ ".md".toList
      if zip.createOK mdName = false then .error "Internal error: zipWriter.Create".toList
      else if zip.writeOK (.text result) = false then
        .error "Internal error: zipWriter.Create.Write".toList
      else if zip.closeOK = false then .error "Internal error: zipWriter.Close".toList
      else .archive (docToken ++ ".zip".toList) (entries ++ [(mdName, .text result)])
    else .file (docToken ++ ".md".toList) result

/-! ## Specification-level definitions

The definitions below are not translations of source functions: they are the predicates
and reference functions in which the properties of the passes are stated. -/

/-- Reference definition of image-reference normalisation, following the words of the
specification: `data:` and `https://` references are returned as they are, `http://`
has only its scheme replaced, `//` gets `https:` prepended, anything else is unchanged. -/
def normalizeSpec (x : Str) : Str :=
  if hasPrefix x "data:".toList ∨ hasPrefix x "https://".toList then x
  else if hasPrefix x "http://".toList then "https://".toList ++ x.drop 7
  else if hasPrefix x "//".toList then "https:".toList ++ x
  else x

/-- Syntactic check that every match of the expression consumes at least one character. -/
def Re.consumes : Re → Bool
  | .eps => false
  | .cls _ => true
  | .seq a b => a.consumes || b.consumes
  | .alt a b => a.consumes && b.consumes
  | .star _ _ => false
  | .grp _ r => r.consumes

/-- The pattern matches somewhere in `s`: at the start of some suffix. -/
def Re.matchesIn (re : Re) : Str → Bool
  | [] => (re.exec []).isSome
  | c :: cs => (re.exec (c :: cs)).isSome || re.matchesIn cs

/-- The string starts with a character of the class `\s`. -/
def startsWs (y : Str) : Bool :=
  match y with
  | [] => false
  | d :: _ => reSpace d

/-- After zero or more `\s` characters the string continues with `<`. -/
def wsLt (y : Str) : Bool := (y.dropWhile reSpace).head? == some '<'

/-- The string starts with `>`, one or more `\s` characters, and `<`. -/
def gapAtHead (t : Str) : Bool :=
  match t with
  | [] => false
  | c :: y => c == '>' && startsWs y && wsLt y

/-- The string starts with two newlines. -/
def starts2 (y : Str) : Bool :=
  match y with
  | a :: b :: _ => a == '\n' && b == '\n'
  | _ => false

/-- The string starts with three newlines. -/
def runAtHead (t : Str) : Bool :=
  match t with
  | [] => false
  | c :: y => c == '\n' && starts2 y

/-- The text `n` is matched by the literal pattern `t` under `(?i)`. -/
def foldMatches : Str → Str → Bool
  | [], [] => true
  | t :: ts, n :: ns => foldEq t n && foldMatches ts ns
  | _, _ => false

/-- No match of the pattern starts inside the prefix `a` of the text `a ++ t`. -/
def noMatchBefore (re : Re) : Str → Str → Bool
  | [], _ => true
  | c :: cs, t => (re.exec (c :: cs ++ t)).isNone && noMatchBefore re cs t

/-- Every `<` of the text is followed, later in the text, by a `>`: no tag is left open. -/
def tagsClosed : Str → Bool
  | [] => true
  | c :: cs => (c != '<' || cs.contains '>') && tagsClosed cs

/-- `CodeIns s o`: the text `o` is the text `s` with text inserted only immediately
before the `>` that ends a `<code...>` opening tag (`<code` in any letter case, no `>`
between it and that `>`); every other character is copied. -/
inductive CodeIns : Str → Str → Prop
  | nil : CodeIns [] []
  | copy (c : Char) {s o : Str} : CodeIns s o → CodeIns (c :: s) (c :: o)
  | ins (u1 u2 x : Str) {s o : Str} : foldMatches "<code".toList u1 = true →
      (∀ c ∈ u2, c ≠ '>') → CodeIns s o →
      CodeIns (u1 ++ u2 ++ '>' :: s) (u1 ++ u2 ++ x ++ '>' :: o)

/-- The content sniffing as the specification words it: JPEG when the bytes begin with
`0xFF 0xD8`, PNG when they begin with the 8-byte PNG signature, GIF when they begin with
`GIF8`, PNG otherwise. -/
def sniffSpec (b : Bytes) : Str :=
  if List.isPrefixOf [0xFF, 0xD8] b then "image/jpeg".toList
  else if pngSignature.isPrefixOf b then "image/png".toList
  else if gif8.isPrefixOf b then "image/gif".toList
  else "image/png".toList

/-- The recognised extensions and their MIME types, as the specification lists them. -/
def extMIME (ext : Str) : Option Str :=
  if ext = ".jpg".toList ∨ ext = ".jpeg".toList then some "image/jpeg".toList
  else if ext = ".png".toList then some "image/png".toList
  else if ext = ".gif".toList then some "image/gif".toList
  else if ext = ".webp".toList then some "image/webp".toList
  else if ext = ".svg".toList then some "image/svg+xml".toList
  else if ext = ".bmp".toList then some "image/bmp".toList
  else none

/-- Number of positions of `s` at which `sub` occurs. -/
def countOcc (sub : Str) : Str → Nat
  | [] => 0
  | c :: cs => (if sub.isPrefixOf (c :: cs) then 1 else 0) + countOcc sub cs

/-- A tag-name character of a theme key: an ASCII letter, an ASCII digit or a hyphen.
On these pattern characters `foldEq` is exactly the case folding of `(?i)`. -/
def isTagNameChar (c : Char) : Bool := c.isAlphanum || c = '-'

/-- The text is a tag name: ASCII letters, ASCII digits and hyphens only. -/
def isTagName (t : Str) : Bool := t.all isTagNameChar

/-- A character that ends the name of a tag: a `\s` character, `<`, `>` or `/`. -/
def isDelim (c : Char) : Bool := reSpace c || c = '<' || c = '>' || c = '/'

/-- The opening tag `<N attrs>` with a fresh style attribute for the declaration `S`:
` style="E">` in place of the final `>` when the tag does not end in `/>`, and
` style="E" />` in place of the final `/>` when it does, `E` the HTML-escaped `S`. -/
def styledTag (N attrs S : Str) : Str :=
  if (N ++ attrs).getLast? = some '/' then
    '<' :: (N ++ attrs).dropLast ++ (" style=\"".toList ++ escapeString S ++ "\" />".toList)
  else
    '<' :: N ++ attrs ++ (" style=\"".toList ++ escapeString S ++ "\">".toList)

/-- `TagRw s o`: the text `o` is the text `s` in which some tags `<u>` (`u` without `>`)
have been replaced by a text ending in `>`; every character outside these tags is
copied. -/
inductive TagRw : Str → Str → Prop
  | nil : TagRw [] []
  | copy (c : Char) {s o : Str} : TagRw s o → TagRw (c :: s) (c :: o)
  | tag (u y : Str) {s o : Str} : (∀ c ∈ u, c ≠ '>') → TagRw s o →
      TagRw ('<' :: u ++ '>' :: s) (y ++ '>' :: o)

/-! ## Lemmas on the string helpers -/

theorem replaceFirst_of_prefix (old new s : Str) (h : old.isPrefixOf s = true)
    (hold : old ≠ []) : replaceFirst old new s = new ++ s.drop old.length := by
  cases s with
  | nil =>
    cases old with
    | nil => exact absurd rfl hold
    | cons a l => simp [List.isPrefixOf] at h
  | cons c cs => simp [replaceFirst, h]

/-! ## Lemmas on the matcher -/

theorem starRun_suffix {α : Type} (p : Char → Bool) (g : Bool) (s : Str)
    (k : Str → Option α) (r : α) (h : starRun p g s k = some r) :
    ∃ s1, s1 <:+ s ∧ k s1 = some r := by
  induction s with
  | nil => exact ⟨[], List.suffix_refl _, h⟩
  | cons c cs ih =>
    unfold starRun at h
    by_cases hp : p c = true
    · rw [if_pos hp] at h
      cases g with
      | true =>
        simp only [if_true] at h
        cases hrec : starRun p true cs k with
        | some r1 =>
          rw [hrec] at h
          obtain ⟨s1, hs1, hk⟩ := ih (by rw [hrec]; exact h)
          exact ⟨s1, hs1.trans (List.suffix_cons c cs), hk⟩
        | none =>
          rw [hrec] at h
          exact ⟨c :: cs, List.suffix_refl _, h⟩
      | false =>
        simp only [Bool.false_eq_true, if_false] at h
        cases hk : k (c :: cs) with
        | some r1 =>
          rw [hk] at h
          exact ⟨c :: cs, List.suffix_refl _, by rw [hk]; exact h⟩
        | none =>
          rw [hk] at h
          obtain ⟨s1, hs1, hk1⟩ := ih h
          exact ⟨s1, hs1.trans (List.suffix_cons c cs), hk1⟩
    · rw [if_neg hp] at h
      exact ⟨c :: cs, List.suffix_refl _, h⟩

/-- The matcher hands to its continuation a suffix of its input, a strictly shorter one
when the expression consumes. -/
theorem Re.run_suffix {α : Type} (re : Re) : ∀ (s : Str) (caps : Caps)
    (k : Str → Caps → Option α) (r : α), re.run s caps k = some r →
    ∃ s1 caps1, s1 <:+ s ∧ (re.consumes = true → s1.length < s.length) ∧
      k s1 caps1 = some r := by
  induction re with
  | eps =>
    intro s caps k r h
    exact ⟨s, caps, List.suffix_refl _, by simp [Re.consumes], h⟩
  | cls p =>
    intro s caps k r h
    cases s with
    | nil => simp [Re.run] at h
    | cons c cs =>
      by_cases hp : p c = true
      · simp only [Re.run, hp, if_true] at h
        exact ⟨cs, caps, List.suffix_cons c cs, by simp, h⟩
      · simp [Re.run, hp] at h
  | seq a b iha ihb =>
    intro s caps k r h
    simp only [Re.run] at h
    obtain ⟨s1, caps1, hs1, hl1, h1⟩ := iha s caps _ r h
    obtain ⟨s2, caps2, hs2, hl2, h2⟩ := ihb s1 caps1 k r h1
    refine ⟨s2, caps2, hs2.trans hs1, ?_, h2⟩
    intro hc
    have e1 := hs1.length_le
    have e2 := hs2.length_le
    simp only [Re.consumes, Bool.or_eq_true] at hc
    rcases hc with hc | hc
    · have := hl1 hc; omega
    · have := hl2 hc; omega
  | alt a b iha ihb =>
    intro s caps k r h
    simp only [Re.run] at h
    cases ha : a.run s caps k with
    | some r1 =>
      rw [ha] at h
      obtain ⟨s1, caps1, hs1, hl1, h1⟩ := iha s caps k r1 ha
      refine ⟨s1, caps1, hs1, ?_, by rw [h1]; exact h⟩
      intro hc
      simp only [Re.consumes, Bool.and_eq_true] at hc
      exact hl1 hc.1
    | none =>
      rw [ha] at h
      obtain ⟨s1, caps1, hs1, hl1, h1⟩ := ihb s caps k r h
      refine ⟨s1, caps1, hs1, ?_, h1⟩
      intro hc
      simp only [Re.consumes, Bool.and_eq_true] at hc
      exact hl1 hc.2
  | star p g =>
    intro s caps k r h
    simp only [Re.run] at h
    obtain ⟨s1, hs1, h1⟩ := starRun_suffix p g s _ r h
    exact ⟨s1, caps, hs1, by simp [Re.consumes], h1⟩
  | grp i r0 ih =>
    intro s caps k r h
    simp only [Re.run] at h
    obtain ⟨s1, caps1, hs1, hl1, h1⟩ := ih s caps _ r h
    exact ⟨s1, _, hs1, hl1, h1⟩

/-- A match splits the input into its text and the rest. -/
theorem Re.exec_sound (re : Re) (s : Str) (m : Match) (h : re.exec s = some m) :
    m.text ++ m.rest = s := by
  unfold Re.exec at h
  obtain ⟨s1, caps1, hs1, -, h1⟩ := re.run_suffix s [] _ m h
  simp only [Option.some.injEq] at h1
  subst h1
  obtain ⟨t, ht⟩ := hs1
  subst ht
  simp

/-- A match of a consuming expression has non-empty text. -/
theorem Re.exec_text_ne_nil (re : Re) (hc : re.consumes = true) (s : Str) (m : Match)
    (h : re.exec s = some m) : m.text ≠ [] := by
  unfold Re.exec at h
  obtain ⟨s1, caps1, hs1, hl1, h1⟩ := re.run_suffix s [] _ m h
  simp only [Option.some.injEq] at h1
  subst h1
  have := hl1 hc
  intro h0
  simp only [List.take_eq_nil_iff] at h0
  rcases h0 with h0 | h0
  · omega
  · subst h0; simp at this

/-! ## Lemmas on `ReplaceAllStringFunc` -/

theorem replaceAllAux_skip (re : Re) (repl : Match → Str) :
    ∀ (s : Str) (n : Nat), replaceAllAux re repl n s = replaceAllAux re repl 0 (s.drop n) := by
  intro s
  induction s with
  | nil => intro n; cases n <;> simp [replaceAllAux]
  | cons c cs ih =>
    intro n
    cases n with
    | zero => simp
    | succ n => simp only [replaceAllAux, List.drop_succ_cons]; exact ih n

theorem replaceAllFunc_nil (re : Re) (repl : Match → Str) : replaceAllFunc re repl [] = [] := by
  simp [replaceAllFunc, replaceAllAux]

theorem replaceAllFunc_cons_none (re : Re) (repl : Match → Str) (c : Char) (cs : Str)
    (h : re.exec (c :: cs) = none) :
    replaceAllFunc re repl (c :: cs) = c :: replaceAllFunc re repl cs := by
  simp [replaceAllFunc, replaceAllAux, h]

theorem replaceAllFunc_some (re : Re) (repl : Match → Str) (s : Str) (m : Match)
    (h : re.exec s = some m) (hne : m.text ≠ []) :
    replaceAllFunc re repl s = repl m ++ replaceAllFunc re repl m.rest := by
  have hs := re.exec_sound s m h
  cases s with
  | nil => simp at hs; exact absurd hs.1 hne
  | cons c cs =>
    cases ht : m.text with
    | nil => exact absurd ht hne
    | cons d ds =>
      have hlen : m.text.length = ds.length + 1 := by rw [ht]; rfl
      simp only [replaceAllFunc, replaceAllAux, h, hlen]
      rw [replaceAllAux_skip]
      rw [ht] at hs
      simp only [List.cons_append, List.cons.injEq] at hs
      rw [← hs.2]
      simp

/-- Induction along the scan of `ReplaceAllStringFunc`, for a consuming pattern. -/
theorem replaceAll_induction (re : Re) (hc : re.consumes = true) (P : Str → Prop)
    (hnil : P [])
    (hnone : ∀ c cs, re.exec (c :: cs) = none → P cs → P (c :: cs))
    (hsome : ∀ s m, re.exec s = some m → m.text ≠ [] → m.text ++ m.rest = s →
      P m.rest → P s) :
    ∀ s, P s := by
  suffices H : ∀ (n : Nat) (s : Str), s.length = n → P s from fun s => H _ s rfl
  intro n
  induction n using Nat.strong_induction_on with
  | _ n ih =>
    intro s hn
    cases s with
    | nil => exact hnil
    | cons c cs =>
      cases h : re.exec (c :: cs) with
      | none => exact hnone c cs h (ih cs.length (by simp [← hn]) cs rfl)
      | some m =>
        have hne := re.exec_text_ne_nil hc _ m h
        have hs := re.exec_sound _ m h
        refine hsome _ m h hne hs (ih m.rest.length ?_ m.rest rfl)
        rw [← hn, ← hs]
        simp only [List.length_append]
        have : 0 < m.text.length := List.length_pos.mpr hne
        omega

/-- A string in which the pattern matches nowhere is returned unchanged. -/
theorem replaceAllFunc_of_not_matchesIn (re : Re) (repl : Match → Str) :
    ∀ s, re.matchesIn s = false → replaceAllFunc re repl s = s := by
  intro s
  induction s with
  | nil => intro _; exact replaceAllFunc_nil re repl
  | cons c cs ih =>
    intro h
    simp only [Re.matchesIn, Bool.or_eq_false_iff] at h
    have h1 : re.exec (c :: cs) = none := by
      cases he : re.exec (c :: cs) with
      | none => rfl
      | some m => rw [he] at h; simp at h
    rw [replaceAllFunc_cons_none re repl c cs h1, ih h.2]

/-- A consuming pattern does not match the empty string. -/
theorem Re.exec_nil_of_consumes (re : Re) (hc : re.consumes = true) : re.exec [] = none := by
  cases h : re.exec [] with
  | none => rfl
  | some m =>
    have h1 := re.exec_text_ne_nil hc _ m h
    have h2 := re.exec_sound _ m h
    simp only [List.append_eq_nil] at h2
    exact absurd h2.1 h1

/-- Removing every match (empty replacement) only deletes characters, and deletes at
least one when the pattern matches somewhere. -/
theorem replaceAll_delete (re : Re) (hc : re.consumes = true) (repl : Match → Str)
    (hrepl : ∀ m, repl m = []) :
    ∀ s, (replaceAllFunc re repl s).Sublist s ∧
      (re.matchesIn s = true → (replaceAllFunc re repl s).length < s.length) := by
  apply replaceAll_induction re hc
  · refine ⟨by simp [replaceAllFunc_nil], ?_⟩
    intro h
    simp [Re.matchesIn, re.exec_nil_of_consumes hc] at h
  · intro c cs hnone ih
    rw [replaceAllFunc_cons_none re repl c cs hnone]
    refine ⟨ih.1.cons₂ c, ?_⟩
    intro h
    simp only [Re.matchesIn, hnone, Option.isSome_none, Bool.false_or] at h
    have := ih.2 h
    simp only [List.length_cons]
    omega
  · intro s m hm hne hs ih
    rw [replaceAllFunc_some re repl s m hm hne, hrepl, List.nil_append]
    have hsub : (replaceAllFunc re repl m.rest).Sublist s := by
      rw [← hs]
      exact ih.1.trans (List.sublist_append_right _ _)
    refine ⟨hsub, ?_⟩
    intro _
    have h1 := ih.1.length_le
    have h2 : 0 < m.text.length := List.length_pos.mpr hne
    rw [← hs, List.length_append]
    omega

/-- A deleting pass returns its input unchanged exactly when the pattern matches nowhere. -/
theorem replaceAll_delete_eq_self_iff (re : Re) (hc : re.consumes = true)
    (repl : Match → Str) (hrepl : ∀ m, repl m = []) (s : Str) :
    replaceAllFunc re repl s = s ↔ re.matchesIn s = false := by
  constructor
  · intro h
    cases hm : re.matchesIn s with
    | false => rfl
    | true =>
      have := (replaceAll_delete re hc repl hrepl s).2 hm
      rw [h] at this
      exact absurd this (lt_irrefl _)
  · exact replaceAllFunc_of_not_matchesIn re repl s

/-- Three deleting passes in a row: the result is a subsequence of the input, and is the
input exactly when none of the three patterns matches in the input. -/
theorem three_deleting_passes (r1 r2 r3 : Re) (h1 : r1.consumes = true)
    (h2 : r2.consumes = true) (h3 : r3.consumes = true) (s : Str) :
    (replaceAllString r3 [] (replaceAllString r2 [] (replaceAllString r1 [] s))).Sublist s ∧
    (replaceAllString r3 [] (replaceAllString r2 [] (replaceAllString r1 [] s)) = s ↔
      (r1.matchesIn s = false ∧ r2.matchesIn s = false ∧ r3.matchesIn s = false)) := by
  have e : ∀ m : Match, (fun m => expandAux m 0 []) m = [] := fun m => by simp [expandAux]
  have d1 := replaceAll_delete r1 h1 _ e s
  have d2 := replaceAll_delete r2 h2 _ e (replaceAllString r1 [] s)
  have d3 := replaceAll_delete r3 h3 _ e (replaceAllString r2 [] (replaceAllString r1 [] s))
  have i1 := replaceAll_delete_eq_self_iff r1 h1 _ e s
  have sub : (replaceAllString r3 [] (replaceAllString r2 [] (replaceAllString r1 [] s))).Sublist s :=
    d3.1.trans (d2.1.trans d1.1)
  refine ⟨sub, ?_⟩
  constructor
  · intro h
    have hl := congrArg List.length h
    have l1 := d1.1.length_le
    have l2 := d2.1.length_le
    have l3 := d3.1.length_le
    have e1 : replaceAllString r1 [] s = s := d1.1.eq_of_length (by unfold replaceAllString at *; omega)
    have e2 : replaceAllString r2 [] s = s := by
      have := d2.1.eq_of_length (by unfold replaceAllString at *; omega)
      rw [e1] at this
      exact this
    have e3 : replaceAllString r3 [] s = s := by
      rw [e1, e2] at h
      exact h
    exact ⟨i1.mp e1, (replaceAll_delete_eq_self_iff r2 h2 _ e s).mp e2,
      (replaceAll_delete_eq_self_iff r3 h3 _ e s).mp e3⟩
  · rintro ⟨m1, m2, m3⟩
    have e1 : replaceAllString r1 [] s = s := replaceAllFunc_of_not_matchesIn r1 _ s m1
    have e2 : replaceAllString r2 [] s = s := replaceAllFunc_of_not_matchesIn r2 _ s m2
    have e3 : replaceAllString r3 [] s = s := replaceAllFunc_of_not_matchesIn r3 _ s m3
    rw [e1, e2, e3]

/-! ## Greedy repetition -/

/-- A greedy repetition followed by something that cannot start with a character of the
class stops exactly where the run of the class ends. -/
theorem starRun_greedy_fail {α : Type} (p : Char → Bool) (k : Str → Option α)
    (hk : ∀ c cs, p c = true → k (c :: cs) = none) :
    ∀ s, starRun p true s k = k (s.dropWhile p) := by
  intro s
  induction s with
  | nil => simp [starRun]
  | cons c cs ih =>
    unfold starRun
    by_cases hp : p c = true
    · simp only [hp, if_true, List.dropWhile_cons_of_pos]
      rw [ih, hk c cs hp]
      cases k (List.dropWhile p cs) <;> rfl
    · simp only [hp, Bool.false_eq_true, if_false]
      rw [List.dropWhile_cons_of_neg hp]

/-- A greedy repetition takes the whole run of the class when the rest of the match
succeeds there. -/
theorem starRun_greedy_ok {α : Type} (p : Char → Bool) (k : Str → Option α) :
    ∀ s, (k (s.dropWhile p)).isSome = true → starRun p true s k = k (s.dropWhile p) := by
  intro s
  induction s with
  | nil => intro _; simp [starRun]
  | cons c cs ih =>
    intro h
    unfold starRun
    by_cases hp : p c = true
    · rw [List.dropWhile_cons_of_pos hp] at h
      simp only [hp, if_true, List.dropWhile_cons_of_pos]
      rw [ih h]
      cases hk : k (List.dropWhile p cs) with
      | none => rw [hk] at h; simp at h
      | some r => rfl
    · simp only [hp, Bool.false_eq_true, if_false]
      rw [List.dropWhile_cons_of_neg hp]

/-! ## The two patterns of `cleanupWhitespace` -/

theorem wsLt_cons (c : Char) (y : Str) :
    wsLt (c :: y) = if reSpace c = true then wsLt y else c == '<' := by
  unfold wsLt
  by_cases h : reSpace c = true
  · simp [List.dropWhile_cons_of_pos h, h]
  · simp [List.dropWhile_cons_of_neg h, h]

theorem tagGap_exec_isSome (t : Str) : (tagGapPattern.exec t).isSome = gapAtHead t := by
  cases t with
  | nil => rfl
  | cons c y =>
    by_cases hc : c = '>'
    · subst hc
      cases y with
      | nil => rfl
      | cons d r =>
        by_cases hd : reSpace d = true
        · simp only [tagGapPattern, Re.cat, Re.chr, Re.exec, Re.run, if_true, hd, gapAtHead,
            startsWs, beq_self_eq_true, Bool.true_and, wsLt_cons]
          rw [starRun_greedy_fail]
          · unfold wsLt
            cases hdw : List.dropWhile reSpace r with
            | nil => simp [Re.run]
            | cons e r2 =>
              by_cases he : e = '<'
              · simp [Re.run, he]
              · simp [Re.run, he]
          · intro e es he
            have : e ≠ '<' := by
              intro h0
              subst h0
              simp [reSpace] at he
            simp [Re.run, this]
        · simp [tagGapPattern, Re.cat, Re.chr, Re.exec, Re.run, hd, gapAtHead, startsWs]
    · simp [tagGapPattern, Re.cat, Re.chr, Re.exec, Re.run, hc, gapAtHead]

theorem tagGap_exec_none (t : Str) (h : tagGapPattern.exec t = none) : gapAtHead t = false := by
  rw [← tagGap_exec_isSome, h]; rfl

theorem tagGap_exec_some (t : Str) (m : Match) (h : tagGapPattern.exec t = some m) :
    gapAtHead t = true := by
  rw [← tagGap_exec_isSome, h]; rfl

theorem blankLines_exec (t : Str) :
    blankLinesPattern.exec t =
      match t with
      | a :: b :: c :: r =>
        if a = '\n' ∧ b = '\n' ∧ c = '\n' then
          some ⟨(a :: b :: c :: r).take ((a :: b :: c :: r).length -
            (r.dropWhile (fun x => x = '\n')).length), r.dropWhile (fun x => x = '\n'), []⟩
        else none
      | _ => none := by
  match t with
  | [] => rfl
  | [a] => by_cases ha : a = '\n' <;> simp [blankLinesPattern, Re.cat, Re.chr, Re.exec, Re.run, ha]
  | [a, b] =>
    by_cases ha : a = '\n' <;> by_cases hb : b = '\n' <;>
      simp [blankLinesPattern, Re.cat, Re.chr, Re.exec, Re.run, ha, hb]
  | a :: b :: c :: r =>
    by_cases ha : a = '\n'
    · by_cases hb : b = '\n'
      · by_cases hc : c = '\n'
        · simp only [blankLinesPattern, Re.cat, Re.chr, Re.exec, Re.run, ha, hb, hc,
            decide_True, if_true, and_self]
          rw [starRun_greedy_ok]
          simp
        · simp [blankLinesPattern, Re.cat, Re.chr, Re.exec, Re.run, ha, hb, hc]
      · simp [blankLinesPattern, Re.cat, Re.chr, Re.exec, Re.run, ha, hb]
    · simp [blankLinesPattern, Re.cat, Re.chr, Re.exec, Re.run, ha]

theorem blankLines_exec_isSome (t : Str) : (blankLinesPattern.exec t).isSome = runAtHead t := by
  rw [blankLines_exec]
  match t with
  | [] => rfl
  | [a] => simp [runAtHead, starts2]
  | [a, b] => simp [runAtHead, starts2]
  | a :: b :: c :: r =>
    by_cases h : a = '\n' ∧ b = '\n' ∧ c = '\n'
    · simp [h, runAtHead, starts2]
    · simp only [h, if_false, Option.isSome_none, runAtHead, starts2]
      symm
      simp only [Bool.and_eq_false_imp, beq_iff_eq, Bool.and_eq_true]
      intro h1 h2
      by_contra h3
      simp only [beq_eq_false_iff_ne, ne_eq, not_not] at h3
      exact h ⟨h1, h2, h3⟩

theorem blankLines_exec_some (t : Str) (m : Match) (h : blankLinesPattern.exec t = some m) :
    ∃ r, t = '\n' :: '\n' :: '\n' :: r ∧ m.rest = r.dropWhile (fun x => x = '\n') := by
  rw [blankLines_exec] at h
  match t, h with
  | a :: b :: c :: r, h =>
    by_cases h0 : a = '\n' ∧ b = '\n' ∧ c = '\n'
    · simp only [h0, and_self, if_true, Option.some.injEq] at h
      refine ⟨r, by rw [h0.1, h0.2.1, h0.2.2], ?_⟩
      rw [← h]
    · simp [h0] at h

/-- A template without `$` expands to itself. -/
theorem expandAux_const (m : Match) : ∀ tpl : Str, '$' ∉ tpl → expandAux m 0 tpl = tpl := by
  intro tpl
  induction tpl with
  | nil => intro _; rfl
  | cons c t ih =>
    intro h
    simp only [List.mem_cons, not_or] at h
    have hc : c ≠ '$' := fun h0 => h.1 h0.symm
    simp only [expandAux, hc, if_false]
    rw [ih h.2]

theorem replaceAllString_const (re : Re) (tpl : Str) (h : '$' ∉ tpl) (s : Str) :
    replaceAllString re tpl s = replaceAllFunc re (fun _ => tpl) s := by
  unfold replaceAllString
  congr 1
  funext m
  exact expandAux_const m tpl h

theorem matchesIn_cons (re : Re) (c : Char) (cs : Str) :
    re.matchesIn (c :: cs) = ((re.exec (c :: cs)).isSome || re.matchesIn cs) := rfl

theorem matchesIn_append_right (re : Re) (a b : Str) (h : re.matchesIn (a ++ b) = false) :
    re.matchesIn b = false := by
  induction a with
  | nil => exact h
  | cons c cs ih =>
    rw [List.cons_append, matchesIn_cons, Bool.or_eq_false_iff] at h
    exact ih h.2

theorem matchesIn_head (re : Re) (t : Str) (h : re.matchesIn t = false) :
    (re.exec t).isSome = false := by
  cases t with
  | nil => exact h
  | cons c cs =>
    rw [matchesIn_cons, Bool.or_eq_false_iff] at h
    exact h.1

theorem matchesIn_append_left (re : Re)
    (hmono : ∀ t b, (re.exec t).isSome = true → (re.exec (t ++ b)).isSome = true)
    (a b : Str) (h : re.matchesIn (a ++ b) = false) : re.matchesIn a = false := by
  induction a with
  | nil =>
    have h1 := matchesIn_head re _ h
    cases h2 : (re.exec []).isSome with
    | false => exact h2
    | true =>
      have := hmono [] b h2
      rw [List.nil_append] at h1
      simp only [List.nil_append] at this
      rw [h1] at this
      exact absurd this (by simp)
  | cons c cs ih =>
    rw [List.cons_append, matchesIn_cons, Bool.or_eq_false_iff] at h
    rw [matchesIn_cons, Bool.or_eq_false_iff]
    refine ⟨?_, ih h.2⟩
    cases h2 : (re.exec (c :: cs)).isSome with
    | false => rfl
    | true =>
      have := hmono (c :: cs) b h2
      rw [List.cons_append, h.1] at this
      exact absurd this (by simp)

theorem startsWs_of_head (y z : Str) (h : y.head? = z.head?) : startsWs y = startsWs z := by
  cases y <;> cases z <;> simp_all [startsWs]

theorem wsLt_append (y b : Str) (h : wsLt y = true) : wsLt (y ++ b) = true := by
  induction y with
  | nil => simp [wsLt] at h
  | cons c cs ih =>
    rw [List.cons_append, wsLt_cons]
    rw [wsLt_cons] at h
    by_cases hc : reSpace c = true
    · simp only [hc, if_true] at h ⊢
      exact ih h
    · simp only [hc, Bool.false_eq_true, if_false] at h ⊢
      exact h

theorem gapAtHead_append (t b : Str) (h : gapAtHead t = true) : gapAtHead (t ++ b) = true := by
  cases t with
  | nil => simp [gapAtHead] at h
  | cons c y =>
    simp only [gapAtHead, Bool.and_eq_true] at h
    simp only [List.cons_append, gapAtHead, Bool.and_eq_true]
    refine ⟨⟨h.1.1, ?_⟩, wsLt_append y b h.2⟩
    cases y with
    | nil => simp [startsWs] at h
    | cons d r => simpa [startsWs] using h.1.2

theorem runAtHead_append (t b : Str) (h : runAtHead t = true) : runAtHead (t ++ b) = true := by
  match t, h with
  | [], h => simp [runAtHead] at h
  | [a], h => simp [runAtHead, starts2] at h
  | [a, c], h => simp [runAtHead, starts2] at h
  | a :: c :: d :: r, h => simpa [runAtHead, starts2] using h

theorem gapAtHead_cons_congr (c : Char) (y z : Str) (h1 : startsWs y = startsWs z)
    (h2 : wsLt y = wsLt z) : gapAtHead (c :: y) = gapAtHead (c :: z) := by
  simp only [gapAtHead, h1, h2]

theorem gapAtHead_head (t : Str) (h : gapAtHead t = true) : ∃ y, t = '>' :: y := by
  cases t with
  | nil => simp [gapAtHead] at h
  | cons c y =>
    simp only [gapAtHead, Bool.and_eq_true, beq_iff_eq] at h
    exact ⟨y, by rw [h.1.1]⟩

/-! ### The pass `>\s+<` to `><` -/

theorem replaceAll_two (a b : Char) (x : Str) : [a, b] ++ x = a :: b :: x := rfl

theorem gapPass_head (s : Str) :
    (replaceAllFunc tagGapPattern (fun _ => ['>', '<']) s).head? = s.head? := by
  cases s with
  | nil => simp [replaceAllFunc_nil]
  | cons c cs =>
    cases h : tagGapPattern.exec (c :: cs) with
    | none => rw [replaceAllFunc_cons_none _ _ _ _ h]; rfl
    | some m =>
      rw [replaceAllFunc_some _ _ _ m h (Re.exec_text_ne_nil _ (by rfl) _ m h)]
      obtain ⟨y, hy⟩ := gapAtHead_head _ (tagGap_exec_some _ m h)
      rw [hy]
      rfl

theorem gapPass_wsLt :
    ∀ s, wsLt (replaceAllFunc tagGapPattern (fun _ => ['>', '<']) s) = wsLt s := by
  apply replaceAll_induction tagGapPattern rfl
  · rw [replaceAllFunc_nil]
  · intro c cs h ih
    rw [replaceAllFunc_cons_none _ _ _ _ h, wsLt_cons, wsLt_cons, ih]
  · intro s m h hne _ _
    rw [replaceAllFunc_some _ _ _ m h hne]
    obtain ⟨y, hy⟩ := gapAtHead_head _ (tagGap_exec_some _ m h)
    rw [hy]
    rw [replaceAll_two]
    rw [wsLt_cons, wsLt_cons]
    rfl

theorem gapPass_noGap :
    ∀ s, tagGapPattern.matchesIn
      (replaceAllFunc tagGapPattern (fun _ => ['>', '<']) s) = false := by
  apply replaceAll_induction tagGapPattern rfl
  · rw [replaceAllFunc_nil]; rfl
  · intro c cs h ih
    rw [replaceAllFunc_cons_none _ _ _ _ h, matchesIn_cons, ih, Bool.or_false,
      tagGap_exec_isSome,
      gapAtHead_cons_congr c _ cs (startsWs_of_head _ _ (gapPass_head cs)) (gapPass_wsLt cs)]
    exact tagGap_exec_none _ h
  · intro s m h hne _ ih
    rw [replaceAllFunc_some _ _ _ m h hne]
    rw [replaceAll_two]
    rw [matchesIn_cons, matchesIn_cons, ih, tagGap_exec_isSome, tagGap_exec_isSome]
    simp [gapAtHead, startsWs, reSpace]

/-! ### The pass `\n{3,}` to two newlines -/

theorem blankPass_head (s : Str) :
    (replaceAllFunc blankLinesPattern (fun _ => ['\n', '\n']) s).head? = s.head? := by
  cases s with
  | nil => simp [replaceAllFunc_nil]
  | cons c cs =>
    cases h : blankLinesPattern.exec (c :: cs) with
    | none => rw [replaceAllFunc_cons_none _ _ _ _ h]; rfl
    | some m =>
      rw [replaceAllFunc_some _ _ _ m h (Re.exec_text_ne_nil _ (by rfl) _ m h)]
      obtain ⟨r, hr, -⟩ := blankLines_exec_some _ m h
      rw [hr]
      rfl

theorem wsLt_dropWhile_newline (r : Str) :
    wsLt (r.dropWhile (fun x => x = '\n')) = wsLt r := by
  induction r with
  | nil => rfl
  | cons c cs ih =>
    by_cases hc : c = '\n'
    · subst hc
      rw [List.dropWhile_cons_of_pos (by simp), ih, wsLt_cons]
      simp [reSpace]
    · rw [List.dropWhile_cons_of_neg (by simpa using hc)]

theorem blankPass_wsLt :
    ∀ s, wsLt (replaceAllFunc blankLinesPattern (fun _ => ['\n', '\n']) s) = wsLt s := by
  apply replaceAll_induction blankLinesPattern rfl
  · rw [replaceAllFunc_nil]
  · intro c cs h ih
    rw [replaceAllFunc_cons_none _ _ _ _ h, wsLt_cons, wsLt_cons, ih]
  · intro s m h hne _ ih
    rw [replaceAllFunc_some _ _ _ m h hne]
    obtain ⟨r, hr, hrest⟩ := blankLines_exec_some _ m h
    rw [hr]
    rw [replaceAll_two]
    rw [wsLt_cons, wsLt_cons, wsLt_cons, wsLt_cons, wsLt_cons, ih, hrest,
      wsLt_dropWhile_newline]
    simp [reSpace]

theorem blankPass_keeps_noGap :
    ∀ s, tagGapPattern.matchesIn s = false →
      tagGapPattern.matchesIn
        (replaceAllFunc blankLinesPattern (fun _ => ['\n', '\n']) s) = false := by
  apply replaceAll_induction blankLinesPattern rfl
  · intro h; rw [replaceAllFunc_nil]; exact h
  · intro c cs h ih hs
    rw [matchesIn_cons, Bool.or_eq_false_iff] at hs
    rw [replaceAllFunc_cons_none _ _ _ _ h, matchesIn_cons, ih hs.2, Bool.or_false,
      tagGap_exec_isSome,
      gapAtHead_cons_congr c _ cs (startsWs_of_head _ _ (blankPass_head cs)) (blankPass_wsLt cs),
      ← tagGap_exec_isSome]
    exact hs.1
  · intro s m h hne hsplit ih hs
    rw [replaceAllFunc_some _ _ _ m h hne]
    have hrest : tagGapPattern.matchesIn m.rest = false := by
      rw [← hsplit] at hs
      exact matchesIn_append_right _ _ _ hs
    rw [replaceAll_two]
    rw [matchesIn_cons, matchesIn_cons, ih hrest, tagGap_exec_isSome, tagGap_exec_isSome]
    simp [gapAtHead]

theorem blankPass_starts2 (s : Str)
    (h : starts2 (replaceAllFunc blankLinesPattern (fun _ => ['\n', '\n']) s) = true) :
    starts2 s = true := by
  cases s with
  | nil => rw [replaceAllFunc_nil] at h; exact h
  | cons c cs =>
    cases he : blankLinesPattern.exec (c :: cs) with
    | none =>
      rw [replaceAllFunc_cons_none _ _ _ _ he] at h
      have hh := blankPass_head cs
      cases hcs : cs with
      | nil =>
        rw [hcs, replaceAllFunc_nil] at h
        simp [starts2] at h
      | cons d ds =>
        rw [hcs] at hh h
        cases hf : replaceAllFunc blankLinesPattern (fun _ => ['\n', '\n']) (d :: ds) with
        | nil => rw [hf] at h; simp [starts2] at h
        | cons e es =>
          rw [hf] at hh h
          simp only [List.head?_cons, Option.some.injEq] at hh
          subst hh
          simpa [starts2] using h
    | some m =>
      obtain ⟨r, hr, -⟩ := blankLines_exec_some _ m he
      rw [hr]
      rfl

theorem blankPass_noRun :
    ∀ s, blankLinesPattern.matchesIn
      (replaceAllFunc blankLinesPattern (fun _ => ['\n', '\n']) s) = false := by
  apply replaceAll_induction blankLinesPattern rfl
  · rw [replaceAllFunc_nil]; rfl
  · intro c cs h ih
    rw [replaceAllFunc_cons_none _ _ _ _ h, matchesIn_cons, ih, Bool.or_false,
      blankLines_exec_isSome]
    have hno : runAtHead (c :: cs) = false := by
      rw [← blankLines_exec_isSome, h]; rfl
    cases hr : runAtHead (c :: replaceAllFunc blankLinesPattern (fun _ => ['\n', '\n']) cs) with
    | false => rfl
    | true =>
      simp only [runAtHead, Bool.and_eq_true] at hr
      have := blankPass_starts2 cs hr.2
      simp [runAtHead, hr.1, this] at hno
  · intro s m h hne _ ih
    rw [replaceAllFunc_some _ _ _ m h hne]
    obtain ⟨r, -, hrest⟩ := blankLines_exec_some _ m h
    have hhead := blankPass_head m.rest
    have hnl : (replaceAllFunc blankLinesPattern (fun _ => ['\n', '\n']) m.rest).head?
        ≠ some '\n' := by
      rw [hhead, hrest]
      intro h0
      have := List.head?_dropWhile_not (fun x => decide (x = '\n')) r
      rw [h0] at this
      simp at this
    rw [replaceAll_two]
    rw [matchesIn_cons, matchesIn_cons, ih, blankLines_exec_isSome, blankLines_exec_isSome]
    cases hf : replaceAllFunc blankLinesPattern (fun _ => ['\n', '\n']) m.rest with
    | nil => simp [runAtHead, starts2]
    | cons e es =>
      rw [hf] at hnl
      simp only [List.head?_cons, ne_eq, Option.some.injEq] at hnl
      cases es with
      | nil => simp [runAtHead, starts2, hnl]
      | cons e2 es2 => simp [runAtHead, starts2, hnl]

/-! ### Trimming -/

theorem trimSpace_idem (s : Str) : trimSpace (trimSpace s) = trimSpace s := by
  unfold trimSpace
  have h1 : ((s.dropWhile isSpace).rdropWhile isSpace).dropWhile isSpace
      = (s.dropWhile isSpace).rdropWhile isSpace := by
    cases ht : (s.dropWhile isSpace).rdropWhile isSpace with
    | nil => rfl
    | cons a t =>
      have hpre : (a :: t) <+: s.dropWhile isSpace := ht ▸ List.rdropWhile_prefix isSpace _
      obtain ⟨u, hu⟩ := hpre
      have hh := List.head?_dropWhile_not isSpace s
      rw [← hu] at hh
      simp only [List.cons_append, List.head?_cons] at hh
      rw [List.dropWhile_cons_of_neg (by simp [hh])]
  rw [h1, List.rdropWhile_idempotent]

theorem trimSpace_keeps_noMatch (re : Re)
    (hmono : ∀ t b, (re.exec t).isSome = true → (re.exec (t ++ b)).isSome = true)
    (s : Str) (h : re.matchesIn s = false) : re.matchesIn (trimSpace s) = false := by
  unfold trimSpace
  have h1 : re.matchesIn (s.dropWhile isSpace) = false := by
    rw [← List.takeWhile_append_dropWhile isSpace s] at h
    exact matchesIn_append_right _ _ _ h
  obtain ⟨u, hu⟩ := List.rdropWhile_prefix isSpace (s.dropWhile isSpace)
  rw [← hu] at h1
  exact matchesIn_append_left re hmono _ _ h1

/-! ## The tag-level pass -/

theorem foldEq_lt (x : Char) : foldEq '<' x = decide ('<' = x) := by
  simp [foldEq, show toLowerChar '<' = '<' from rfl, show Char.isLower '<' = false from rfl]

theorem foldEq_gt (x : Char) : foldEq '>' x = decide ('>' = x) := by
  simp [foldEq, show toLowerChar '>' = '>' from rfl, show Char.isLower '>' = false from rfl]

theorem litI_run {α : Type} (T : Str) : ∀ (N rest : Str) (caps : Caps)
    (k : Str → Caps → Option α), foldMatches T N = true →
    (Re.litI T).run (N ++ rest) caps k = k rest caps := by
  induction T with
  | nil =>
    intro N rest caps k h
    cases N with
    | nil => rfl
    | cons n ns => simp [foldMatches] at h
  | cons t ts ih =>
    intro N rest caps k h
    cases N with
    | nil => simp [foldMatches] at h
    | cons n ns =>
      simp only [foldMatches, Bool.and_eq_true] at h
      simp only [Re.litI, Re.chrI, Re.run, List.cons_append, h.1, if_true]
      exact ih ns rest caps k h.2

theorem dropWhile_notGt_append (l post : Str) (h : ∀ c ∈ l, c ≠ '>') :
    (l ++ '>' :: post).dropWhile notGt = '>' :: post := by
  induction l with
  | nil => simp [notGt]
  | cons c cs ih =>
    have hc : notGt c = true := by simp [notGt, h c (List.mem_cons_self _ _)]
    rw [List.cons_append, List.dropWhile_cons_of_pos hc]
    exact ih (fun d hd => h d (List.mem_cons_of_mem _ hd))

/-- An opening tag `<N attrs>` is matched whole by the tag pattern. -/
theorem tagPattern_exec (T N attrs post : Str) (hN : foldMatches T N = true)
    (hws : attrs = [] ∨ startsWs attrs = true) (hgt : ∀ c ∈ attrs, c ≠ '>') :
    ∃ m, (tagPattern T).exec ('<' :: N ++ attrs ++ '>' :: post) = some m ∧
      m.text = '<' :: N ++ attrs ++ ['>'] ∧ m.rest = post := by
  have key : ∃ m, (tagPattern T).exec ('<' :: N ++ attrs ++ '>' :: post) = some m ∧
      m.rest = post := by
    have e0 : '<' :: N ++ attrs ++ '>' :: post = '<' :: (N ++ (attrs ++ '>' :: post)) := by
      simp
    rw [e0]
    simp only [tagPattern, Re.cat, Re.opt, Re.chrI, Re.exec, Re.run, foldEq_lt, decide_True,
      if_true]
    rw [litI_run T N _ _ _ hN]
    cases attrs with
    | nil => simp [Re.run, reSpace, foldEq_gt]
    | cons w l =>
      have hw : reSpace w = true := by
        rcases hws with h | h
        · exact absurd h (by simp)
        · exact h
      have hl : ∀ c ∈ l, c ≠ '>' := fun c hc => hgt c (List.mem_cons_of_mem _ hc)
      rw [List.cons_append]
      simp only [Re.run, hw, if_true]
      rw [starRun_greedy_fail]
      · rw [dropWhile_notGt_append l post hl]
        simp [Re.run, foldEq_gt]
      · intro c cs hc
        have : c ≠ '>' := by simpa [notGt] using hc
        simp [Re.run, foldEq_gt, this.symm]
  obtain ⟨m, hm, hrest⟩ := key
  refine ⟨m, hm, ?_, hrest⟩
  have hs := (tagPattern T).exec_sound _ m hm
  rw [hrest] at hs
  have e : '<' :: N ++ attrs ++ '>' :: post = ('<' :: N ++ attrs ++ ['>']) ++ post := by simp
  rw [e] at hs
  exact List.append_cancel_right hs

theorem replaceAllFunc_noMatchBefore (re : Re) (repl : Match → Str) (a t : Str)
    (h : noMatchBefore re a t = true) :
    replaceAllFunc re repl (a ++ t) = a ++ replaceAllFunc re repl t := by
  induction a with
  | nil => rfl
  | cons c cs ih =>
    simp only [noMatchBefore, Bool.and_eq_true, Option.isNone_iff_eq_none] at h
    rw [List.cons_append, replaceAllFunc_cons_none re repl c (cs ++ t) h.1, ih h.2]
    rfl

theorem replaceFirst_cons_neg (old new : Str) (c : Char) (cs : Str)
    (h : old.isPrefixOf (c :: cs) = false) :
    replaceFirst old new (c :: cs) = c :: replaceFirst old new cs := by
  simp [replaceFirst, h]

theorem replaceFirst_gt (new : Str) : ∀ body : Str, (∀ c ∈ body, c ≠ '>') →
    replaceFirst ['>'] new (body ++ ['>']) = body ++ new := by
  intro body
  induction body with
  | nil => intro _; simp [replaceFirst]
  | cons c cs ih =>
    intro h
    have hc : c ≠ '>' := h c (List.mem_cons_self _ _)
    have hc2 : ¬ '>' = c := fun h0 => hc h0.symm
    rw [List.cons_append, replaceFirst_cons_neg _ _ _ _ (by simp [List.isPrefixOf, hc2]),
      ih (fun d hd => h d (List.mem_cons_of_mem _ hd))]
    rfl

theorem replaceFirst_slashGt (new : Str) : ∀ body : Str, (∀ c ∈ body, c ≠ '>') →
    replaceFirst ['/', '>'] new (body ++ ['/', '>']) = body ++ new := by
  intro body
  induction body with
  | nil => intro _; simp [replaceFirst]
  | cons c cs ih =>
    intro h
    have hcs : ∀ d ∈ cs, d ≠ '>' := fun d hd => h d (List.mem_cons_of_mem _ hd)
    have hno : List.isPrefixOf ['/', '>'] (c :: (cs ++ ['/', '>'])) = false := by
      cases cs with
      | nil => simp [List.isPrefixOf]
      | cons d ds =>
        have hd : ¬ '>' = d := fun h0 => hcs d (List.mem_cons_self _ _) h0.symm
        simp [List.isPrefixOf, hd]
    rw [List.cons_append, replaceFirst_cons_neg _ _ _ _ hno, ih hcs]
    rfl

theorem trimSpace_tag (x : Str) : trimSpace ('<' :: x ++ ['>']) = '<' :: x ++ ['>'] := by
  unfold trimSpace
  rw [List.cons_append, List.dropWhile_cons_of_neg (by decide), ← List.cons_append,
    List.rdropWhile_concat_neg _ _ _ (by decide)]

theorem hasSuffix_tag (x : Str) :
    hasSuffix ('<' :: x ++ ['>']) "/>".toList = decide (x.getLast? = some '/') := by
  unfold hasSuffix
  rcases List.eq_nil_or_concat x with h | ⟨y, e, h⟩
  · subst h; rfl
  · subst h
    have e1 : '<' :: (y.concat e) ++ ['>'] = ('<' :: y) ++ [e, '>'] := by simp
    rw [e1, List.concat_eq_append, List.getLast?_concat]
    by_cases he : e = '/'
    · subst he
      have : "/>".toList <:+ ('<' :: y) ++ ['/', '>'] := ⟨'<' :: y, rfl⟩
      simp only [Option.some.injEq, decide_True]
      exact List.isSuffixOf_iff_suffix.mpr this
    · have : ¬ "/>".toList <:+ ('<' :: y) ++ [e, '>'] := by
        rintro ⟨t, ht⟩
        have e2 : t ++ "/>".toList = (t ++ ['/']) ++ ['>'] := by simp
        have e3 : ('<' :: y) ++ [e, '>'] = (('<' :: y) ++ [e]) ++ ['>'] := by simp
        rw [e2, e3] at ht
        have h1 := List.append_cancel_right ht
        have h2 := List.append_inj_right' h1 rfl
        simp only [List.cons.injEq, and_true] at h2
        exact he h2.symm
      simp only [Option.some.injEq, he, decide_False]
      cases hb : List.isSuffixOf "/>".toList (('<' :: y) ++ [e, '>']) with
      | false => rfl
      | true => exact absurd (List.isSuffixOf_iff_suffix.mp hb) this

/-! ## Template expansion of the pre-code pass -/

theorem takeWhile_append_stop (p : Char → Bool) (d : Char) (y : Str) (hd : p d = false) :
    ∀ x : Str, (x ++ d :: y).takeWhile p = x.takeWhile p := by
  intro x
  induction x with
  | nil => simp [List.takeWhile, hd]
  | cons c cs ih =>
    by_cases hc : p c = true
    · simp [List.takeWhile, hc, ih]
    · simp [List.takeWhile, hc]

theorem extract_len_le (E Q name : Str) (len : Nat)
    (h : extract (E ++ dq :: Q) = some (name, len)) : len ≤ E.length := by
  have hdq : isNameChar dq = false := by decide
  cases E with
  | nil =>
    have : extract (dq :: Q) = none := by
      simp [extract, List.takeWhile, hdq, show dq ≠ Char.ofNat 123 by decide]
    rw [List.nil_append, this] at h
    exact absurd h (by simp)
  | cons c0 E2 =>
    rw [List.cons_append] at h
    unfold extract at h
    by_cases hb : c0 = Char.ofNat 123
    · simp only [hb, if_true] at h
      rw [takeWhile_append_stop isNameChar dq Q hdq E2] at h
      by_cases he : (E2.takeWhile isNameChar).isEmpty = true
      · simp [he] at h
      · simp only [he, Bool.false_eq_true, if_false] at h
        have hle : (E2.takeWhile isNameChar).length ≤ E2.length :=
          (List.takeWhile_sublist _).length_le
        by_cases hlt : (E2.takeWhile isNameChar).length < E2.length
        · split at h
          · simp only [Option.some.injEq, Prod.mk.injEq] at h
            rw [← h.2]
            simp only [List.length_cons]
            omega
          · exact absurd h (by simp)
        · have heq : (E2.takeWhile isNameChar).length = E2.length := by omega
          rw [heq, List.drop_left] at h
          simp [dq] at h
    · simp only [hb, if_false] at h
      rw [← List.cons_append, takeWhile_append_stop isNameChar dq Q hdq (c0 :: E2)] at h
      split at h
      · exact absurd h (by simp)
      · simp only [Option.some.injEq, Prod.mk.injEq] at h
        rw [← h.2]
        exact (List.takeWhile_sublist _).length_le

/-- Whatever the inserted text `E` is, the expansion of a template `E ++ "\"" ++ Q`
reaches the closing quote: references inside `E` cannot extend over the quote. -/
theorem expandAux_tail (m : Match) (Q : Str) : ∀ (E : Str) (n : Nat), n ≤ E.length →
    ∃ X, expandAux m n (E ++ dq :: Q) = X ++ expandAux m 0 (dq :: Q) := by
  obtain ⟨R, hR⟩ : ∃ R, expandAux m 0 (dq :: Q) = R := ⟨_, rfl⟩
  rw [hR]
  intro E
  induction E with
  | nil =>
    intro n hn
    have : n = 0 := by simpa using hn
    subst this
    exact ⟨[], hR⟩
  | cons c E2 ih =>
    intro n hn
    cases n with
    | succ k =>
      obtain ⟨X, hX⟩ := ih k (by simpa using hn)
      exact ⟨X, by rw [List.cons_append]; simp only [expandAux]; exact hX⟩
    | zero =>
      rw [List.cons_append]
      by_cases hc : c = '$'
      · subst hc
        cases hE : E2 ++ dq :: Q with
        | nil => simp at hE
        | cons d t =>
          by_cases hd : d = '$'
          · subst hd
            have h1 : 1 ≤ E2.length := by
              cases E2 with
              | nil =>
                simp only [List.nil_append, List.cons.injEq] at hE
                exact absurd hE.1 (by decide)
              | cons e E3 => simp
            obtain ⟨X, hX⟩ := ih 1 h1
            refine ⟨'$' :: X, ?_⟩
            rw [hE] at hX
            simp only [expandAux] at hX
            simp only [expandAux, if_true]
            rw [hX]
            rfl
          · cases hx : extract (d :: t) with
            | none =>
              obtain ⟨X, hX⟩ := ih 0 (Nat.zero_le _)
              refine ⟨'$' :: X, ?_⟩
              rw [hE] at hX
              simp only [expandAux, if_true, hd, if_false, hx] at hX ⊢
              rw [hX]
              rfl
            | some nl =>
              obtain ⟨name, len⟩ := nl
              have hlen : len ≤ E2.length := extract_len_le E2 Q name len (by rw [hE]; exact hx)
              obtain ⟨X, hX⟩ := ih len hlen
              refine ⟨groupText m name ++ X, ?_⟩
              rw [hE] at hX
              simp only [expandAux, if_true, hd, if_false, hx]
              rw [hX, List.append_assoc]
      · obtain ⟨X, hX⟩ := ih 0 (Nat.zero_le _)
        refine ⟨c :: X, ?_⟩
        simp only [expandAux, hc, if_false]
        rw [hX]
        rfl

/-! ## The pre-code pass -/

theorem litI_run_some {α : Type} (T : Str) : ∀ (s : Str) (caps : Caps)
    (k : Str → Caps → Option α) (r : α), (Re.litI T).run s caps k = some r →
    ∃ N rest, s = N ++ rest ∧ foldMatches T N = true ∧ k rest caps = some r := by
  induction T with
  | nil =>
    intro s caps k r h
    exact ⟨[], s, rfl, rfl, h⟩
  | cons t ts ih =>
    intro s caps k r h
    cases s with
    | nil => simp [Re.litI, Re.chrI, Re.run] at h
    | cons c cs =>
      by_cases hc : foldEq t c = true
      · simp only [Re.litI, Re.chrI, Re.run, hc, if_true] at h
        obtain ⟨N, rest, hs, hN, hk⟩ := ih cs caps k r h
        exact ⟨c :: N, rest, by rw [hs]; rfl, by simp [foldMatches, hc, hN], hk⟩
      · simp [Re.litI, Re.chrI, Re.run, hc] at h

/-- A lazy repetition followed by something that cannot start with a character of the
class stops exactly where the run of the class ends. -/
theorem starRun_lazy_fail {α : Type} (p : Char → Bool) (k : Str → Option α)
    (hk : ∀ c cs, p c = true → k (c :: cs) = none) :
    ∀ s, starRun p false s k = k (s.dropWhile p) := by
  intro s
  induction s with
  | nil => simp [starRun]
  | cons c cs ih =>
    unfold starRun
    by_cases hp : p c = true
    · simp only [hp, if_true, Bool.false_eq_true, if_false, List.dropWhile_cons_of_pos]
      rw [hk c cs hp]
      exact ih
    · simp only [hp, Bool.false_eq_true, if_false]
      rw [List.dropWhile_cons_of_neg hp]

theorem take_length_sub (u v : Str) : (u ++ v).take ((u ++ v).length - v.length) = u := by
  simp

/-- A match of a pattern `(T)([^>]*?)(>)` with a literal `T`: the text is `T` in some
letter case, a run without `>`, and the first `>`; the three groups are these three
parts. -/
theorem openTag_exec (T t : Str) (m : Match)
    (h : (Re.cat [.grp 1 (.litI T), .grp 2 (.star notGt false), .grp 3 (.chrI '>')]).exec t
      = some m) :
    ∃ u1 u2, foldMatches T u1 = true ∧ (∀ c ∈ u2, c ≠ '>') ∧
      t = u1 ++ u2 ++ '>' :: m.rest ∧ m.text = u1 ++ u2 ++ ['>'] ∧
      m.caps = [(3, ['>']), (2, u2), (1, u1)] := by
  simp only [Re.cat, Re.exec, Re.run, Re.chrI] at h
  obtain ⟨u1, s1, ht, hu1, hk⟩ := litI_run_some _ _ _ _ _ h
  rw [starRun_lazy_fail] at hk
  · have hs1 := List.takeWhile_append_dropWhile notGt s1
    cases hd : List.dropWhile notGt s1 with
    | nil => rw [hd] at hk; simp [Re.run] at hk
    | cons d rest =>
      rw [hd] at hk hs1
      by_cases hg : d = '>'
      · subst hg
        simp only [Re.run, foldEq_gt, decide_True, if_true, Option.some.injEq] at hk
        have hu2 : ∀ c ∈ List.takeWhile notGt s1, c ≠ '>' := by
          intro c hc
          have := List.mem_takeWhile_imp hc
          simpa [notGt] using this
        refine ⟨u1, List.takeWhile notGt s1, hu1, hu2, ?_, ?_, ?_⟩
        · rw [← hk, ht, List.append_assoc, hs1]
        · rw [← hk, ht]
          conv_lhs => rw [← hs1]
          have e : u1 ++ (List.takeWhile notGt s1 ++ '>' :: rest)
              = (u1 ++ List.takeWhile notGt s1 ++ ['>']) ++ rest := by simp
          rw [e]
          exact take_length_sub _ _
        · rw [← hk]
          have e1 : List.take (t.length - s1.length) t = u1 := by
            rw [ht]; exact take_length_sub _ _
          have e2 : List.take (s1.length - ('>' :: rest).length) s1
              = List.takeWhile notGt s1 := by
            conv_lhs => rw [← hs1]
            exact take_length_sub _ _
          have e3 : List.take (('>' :: rest).length - rest.length) ('>' :: rest) = ['>'] := by
            simp
          simp only [e1, e2, e3]
      · have : ¬ '>' = d := fun h0 => hg h0.symm
        simp [Re.run, foldEq_gt, this] at hk
  · intro c cs hc
    have : ¬ '>' = c := by
      intro h0
      subst h0
      simp [notGt] at hc
    simp [Re.run, foldEq_gt, this]

theorem codePattern_exec (t : Str) (m : Match) (h : codePattern.exec t = some m) :
    ∃ u1 u2, foldMatches "<code".toList u1 = true ∧ (∀ c ∈ u2, c ≠ '>') ∧
      t = u1 ++ u2 ++ '>' :: m.rest ∧ m.text = u1 ++ u2 ++ ['>'] ∧
      m.caps = [(3, ['>']), (2, u2), (1, u1)] :=
  openTag_exec "<code".toList t m h

/-- The template `$1$2 style="E"$3` expands to group 1, group 2, the attribute text
(whatever references `E` may contain) and group 3. -/
theorem expand_codeTemplate (m : Match) (E : Str) :
    ∃ x, expandAux m 0 ("$1$2 style=\"".toList ++ E ++ "\"$3".toList)
      = (m.caps.lookup 1).getD [] ++ (m.caps.lookup 2).getD [] ++ x
        ++ (m.caps.lookup 3).getD [] := by
  obtain ⟨X, hX⟩ := expandAux_tail m ['$', '3'] E 0 (Nat.zero_le _)
  refine ⟨" style=\"".toList ++ X ++ [dq], ?_⟩
  have e : "$1$2 style=\"".toList ++ E ++ "\"$3".toList
      = '$' :: '1' :: '$' :: '2' :: ' ' :: 's' :: 't' :: 'y' :: 'l' :: 'e' :: '=' :: dq ::
          (E ++ dq :: ['$', '3']) := by
    simp [dq]
  have one : ∀ (c : Char) (t : Str), expandAux m 1 (c :: t) = expandAux m 0 t :=
    fun _ _ => rfl
  have hdq : ¬ dq = '$' := by decide
  have h3 : expandAux m 0 (dq :: ['$', '3']) = dq :: (m.caps.lookup 3).getD [] := by
    simp [expandAux, extract, groupText, isNameChar, hdq, List.takeWhile, one]
  rw [e]
  simp [expandAux, extract, groupText, isNameChar, List.takeWhile, one, hdq]
  rw [hX, h3]
  simp
  rfl

theorem CodeIns_append {a a1 : Str} (h : CodeIns a a1) :
    ∀ {b b1 : Str}, CodeIns b b1 → CodeIns (a ++ b) (a1 ++ b1) := by
  induction h with
  | nil => intro b b1 hb; exact hb
  | copy c _ ih => intro b b1 hb; exact CodeIns.copy c (ih hb)
  | ins u1 u2 x h1 h2 _ ih =>
    intro b b1 hb
    have := CodeIns.ins u1 u2 x h1 h2 (ih hb)
    simpa using this

/-- The inner rewrite of the pre-code pass only inserts text before the `>` of
`<code...>` opening tags. -/
theorem codePass_ins (E : Str) :
    ∀ t, CodeIns t
      (replaceAllString codePattern ("$1$2 style=\"".toList ++ E ++ "\"$3".toList) t) := by
  unfold replaceAllString
  apply replaceAll_induction codePattern rfl
  · rw [replaceAllFunc_nil]; exact CodeIns.nil
  · intro c cs h ih
    rw [replaceAllFunc_cons_none _ _ _ _ h]
    exact CodeIns.copy c ih
  · intro s m h hne hsplit ih
    rw [replaceAllFunc_some _ _ _ m h hne]
    obtain ⟨u1, u2, hu1, hu2, hs, -, hcaps⟩ := codePattern_exec s m h
    obtain ⟨x, hx⟩ := expand_codeTemplate m E
    simp only [hx, hcaps]
    have := CodeIns.ins u1 u2 x hu1 hu2 ih
    rw [← hs] at this
    simpa [List.lookup] using this

/-- The pre-code pass only inserts text before the `>` of `<code...>` opening tags. -/
theorem addInlineStyleToPreCode_ins (style : Str) :
    ∀ s, CodeIns s (addInlineStyleToPreCode s style) := by
  unfold addInlineStyleToPreCode
  apply replaceAll_induction preCodePattern rfl
  · rw [replaceAllFunc_nil]; exact CodeIns.nil
  · intro c cs h ih
    rw [replaceAllFunc_cons_none _ _ _ _ h]
    exact CodeIns.copy c ih
  · intro s m h hne hsplit ih
    rw [replaceAllFunc_some _ _ _ m h hne]
    have := CodeIns_append (codePass_ins (escapeString style) m.text) ih
    rw [hsplit] at this
    exact this

/-! ### The frame of the pre-code pass -/

theorem foldEq_lt_right (a : Char) (h : foldEq a '<' = true) : a = '<' := by
  unfold foldEq at h
  simp only [Bool.or_eq_true, Bool.and_eq_true, decide_eq_true_eq,
    show toLowerChar '<' = '<' from rfl, show ('<'.toNat == 0x212A) = false from rfl,
    show ('<'.toNat == 0x17F) = false from rfl, and_false, or_false,
    Bool.false_eq_true] at h
  rcases h with h | ⟨h1, h2⟩
  · exact h
  · rw [h2] at h1; exact absurd h1 (by decide)

theorem foldEq_gt_right (a : Char) (h : foldEq a '>' = true) : a = '>' := by
  unfold foldEq at h
  simp only [Bool.or_eq_true, Bool.and_eq_true, decide_eq_true_eq,
    show toLowerChar '>' = '>' from rfl, show ('>'.toNat == 0x212A) = false from rfl,
    show ('>'.toNat == 0x17F) = false from rfl, and_false, or_false,
    Bool.false_eq_true] at h
  rcases h with h | ⟨h1, h2⟩
  · exact h
  · rw [h2] at h1; exact absurd h1 (by decide)

theorem foldMatches_no_angle (T : Str) : ∀ N : Str, foldMatches T N = true →
    '<' ∉ T → '>' ∉ T → ∀ c ∈ N, c ≠ '<' ∧ c ≠ '>' := by
  induction T with
  | nil =>
    intro N h _ _ c hc
    cases N with
    | nil => simp at hc
    | cons n ns => simp [foldMatches] at h
  | cons t ts ih =>
    intro N h h1 h2 c hc
    cases N with
    | nil => simp at hc
    | cons n ns =>
      simp only [foldMatches, Bool.and_eq_true] at h
      simp only [List.mem_cons, not_or] at h1 h2
      rcases List.mem_cons.mp hc with h0 | h0
      · subst h0
        constructor
        · intro e; subst e; exact h1.1 (foldEq_lt_right t h.1).symm
        · intro e; subst e; exact h2.1 (foldEq_gt_right t h.1).symm
      · exact ih ns h.2 h1.2 h2.2 c h0

theorem foldMatches_no_gt (T : Str) : ∀ N : Str, foldMatches T N = true →
    '>' ∉ T → ∀ c ∈ N, c ≠ '>' := by
  induction T with
  | nil =>
    intro N h _ c hc
    cases N with
    | nil => simp at hc
    | cons n ns => simp [foldMatches] at h
  | cons t ts ih =>
    intro N h h2 c hc
    cases N with
    | nil => simp at hc
    | cons n ns =>
      simp only [foldMatches, Bool.and_eq_true] at h
      simp only [List.mem_cons, not_or] at h2
      rcases List.mem_cons.mp hc with h0 | h0
      · subst h0
        intro e; subst e; exact h2.1 (foldEq_gt_right t h.1).symm
      · exact ih ns h.2 h2.2 c h0

theorem foldEq_lower (a x : Char) (h : foldEq a x = true) :
    toLowerChar a = toLowerChar x ∨ toLowerChar a = 'k' ∨ toLowerChar a = 's' := by
  unfold foldEq at h
  simp only [Bool.or_eq_true, Bool.and_eq_true, decide_eq_true_eq] at h
  rcases h with ((h | h) | h) | h
  · left; rw [h]
  · left; exact h.2
  · right; left; exact h.1
  · right; right; exact h.1

theorem foldEq_c_p (x : Char) (h1 : foldEq 'c' x = true) (h2 : foldEq 'p' x = true) : False := by
  have e1 : toLowerChar 'c' = 'c' := rfl
  have e2 : toLowerChar 'p' = 'p' := rfl
  rcases foldEq_lower _ _ h1 with a | a | a
  · rcases foldEq_lower _ _ h2 with b | b | b
    · rw [e1] at a; rw [e2, ← a] at b; exact absurd b (by decide)
    · rw [e2] at b; exact absurd b (by decide)
    · rw [e2] at b; exact absurd b (by decide)
  · rw [e1] at a; exact absurd a (by decide)
  · rw [e1] at a; exact absurd a (by decide)

theorem codeOpen_shape (u1 : Str) (h : foldMatches "<code".toList u1 = true) :
    ∃ c1 r, u1 = '<' :: c1 :: r ∧ foldEq 'c' c1 = true := by
  match u1, h with
  | n0 :: n1 :: r, h =>
    have h' : foldMatches ('<' :: 'c' :: "ode".toList) (n0 :: n1 :: r) = true := h
    simp only [foldMatches, Bool.and_eq_true, foldEq_lt, decide_eq_true_eq] at h'
    exact ⟨n1, r, by rw [← h'.1], h'.2.1⟩
  | [], h => exact absurd h (by decide)
  | [n0], h =>
    have h' : foldMatches ('<' :: 'c' :: "ode".toList) [n0] = true := h
    simp [foldMatches] at h'

theorem preOpen_shape (P : Str) (h : foldMatches "<pre".toList P = true) :
    ∃ p1 r, P = '<' :: p1 :: r ∧ foldEq 'p' p1 = true ∧ ∀ c ∈ p1 :: r, c ≠ '<' ∧ c ≠ '>' := by
  match P, h with
  | n0 :: n1 :: r, h =>
    have h' : foldMatches ('<' :: 'p' :: "re".toList) (n0 :: n1 :: r) = true := h
    simp only [foldMatches, Bool.and_eq_true, foldEq_lt, decide_eq_true_eq] at h'
    have h2 : foldMatches "pre".toList (n1 :: r) = true := by
      show foldMatches ('p' :: "re".toList) (n1 :: r) = true
      simp only [foldMatches, Bool.and_eq_true]
      exact h'.2
    exact ⟨n1, r, by rw [← h'.1], h'.2.1,
      foldMatches_no_angle _ _ h2 (by decide) (by decide)⟩
  | [], h => exact absurd h (by decide)
  | [n0], h =>
    have h' : foldMatches ('<' :: 'p' :: "re".toList) [n0] = true := h
    simp [foldMatches] at h'

theorem CodeIns_copy_run : ∀ q : Str, (∀ c ∈ q, c ≠ '<' ∧ c ≠ '>') →
    ∀ (b o : Str), CodeIns (q ++ '>' :: b) o → ∃ b1, o = q ++ '>' :: b1 ∧ CodeIns b b1 := by
  intro q
  induction q with
  | nil =>
    intro _ b o h
    generalize hs : [] ++ '>' :: b = s at h
    cases h with
    | nil => simp at hs
    | copy c h1 =>
      simp only [List.nil_append, List.cons.injEq] at hs
      obtain ⟨hc, hb⟩ := hs
      subst hc hb
      exact ⟨_, rfl, h1⟩
    | ins u1 u2 x hu1 hu2 h1 =>
      obtain ⟨c1, r, hu, -⟩ := codeOpen_shape u1 hu1
      rw [hu] at hs
      simp at hs
  | cons c cs ih =>
    intro hq b o h
    have hc := hq c (List.mem_cons_self _ _)
    generalize hs : (c :: cs) ++ '>' :: b = s at h
    cases h with
    | nil => simp at hs
    | copy d h1 =>
      simp only [List.cons_append, List.cons.injEq] at hs
      obtain ⟨hd, hrest⟩ := hs
      subst hd hrest
      obtain ⟨b1, ho, hb⟩ := ih (fun e he => hq e (List.mem_cons_of_mem _ he)) b _ h1
      exact ⟨b1, by rw [ho]; rfl, hb⟩
    | ins u1 u2 x hu1 hu2 h1 =>
      obtain ⟨c1, r, hu, -⟩ := codeOpen_shape u1 hu1
      rw [hu] at hs
      simp only [List.cons_append, List.cons.injEq] at hs
      exact absurd hs.1 hc.1

theorem first_gt_split : ∀ (u a s1 R : Str), (∀ c ∈ u, c ≠ '>') →
    u ++ '>' :: s1 = a ++ R → '>' ∈ a → ∃ a2, a = u ++ '>' :: a2 ∧ s1 = a2 ++ R := by
  intro u
  induction u with
  | nil =>
    intro a s1 R _ h hmem
    cases a with
    | nil => simp at hmem
    | cons d a1 =>
      simp only [List.nil_append, List.cons_append, List.cons.injEq] at h
      exact ⟨a1, by rw [← h.1]; rfl, h.2⟩
  | cons c cs ih =>
    intro a s1 R hu h hmem
    cases a with
    | nil => simp at hmem
    | cons d a1 =>
      simp only [List.cons_append, List.cons.injEq] at h
      have hc : c ≠ '>' := hu c (List.mem_cons_self _ _)
      have hmem1 : '>' ∈ a1 := by
        rcases List.mem_cons.mp hmem with h0 | h0
        · rw [← h.1] at h0; exact absurd h0.symm hc
        · exact h0
      obtain ⟨a2, ha, hs⟩ := ih a1 s1 R (fun e he => hu e (List.mem_cons_of_mem _ he)) h.2 hmem1
      exact ⟨a2, by rw [← h.1, ha]; rfl, hs⟩

theorem tagsClosed_append_right : ∀ (x y : Str), tagsClosed (x ++ y) = true →
    tagsClosed y = true := by
  intro x
  induction x with
  | nil => intro y h; exact h
  | cons c cs ih =>
    intro y h
    simp only [List.cons_append, tagsClosed, Bool.and_eq_true] at h
    exact ih y h.2

/-- Text inserted by the pre-code pass never falls inside a `<pre ...>` opening tag that
contains no further `<` and is preceded by closed tags only. -/
theorem CodeIns_frame {s out : Str} (h : CodeIns s out) :
    ∀ (a P attrs b : Str), s = a ++ (P ++ attrs ++ '>' :: b) →
      foldMatches "<pre".toList P = true → (∀ c ∈ attrs, c ≠ '<' ∧ c ≠ '>') →
      tagsClosed a = true →
      ∃ a1 b1, out = a1 ++ (P ++ attrs ++ '>' :: b1) ∧ CodeIns a a1 ∧ CodeIns b b1 := by
  induction h with
  | nil =>
    intro a P attrs b hs hP _ _
    obtain ⟨p1, r, hPe, -, -⟩ := preOpen_shape P hP
    rw [hPe] at hs
    cases a <;> simp at hs
  | copy c h1 ih =>
    intro a P attrs b hs hP hattrs hclosed
    cases a with
    | nil =>
      obtain ⟨p1, r, hPe, -, hr⟩ := preOpen_shape P hP
      rw [hPe] at hs
      simp only [List.nil_append, List.cons_append, List.cons.injEq] at hs
      obtain ⟨hc, hrest⟩ := hs
      have hq : ∀ e ∈ (p1 :: r) ++ attrs, e ≠ '<' ∧ e ≠ '>' := by
        intro e he
        rcases List.mem_append.mp he with h0 | h0
        · exact hr e h0
        · exact hattrs e h0
      have hrest2 : p1 :: (r ++ attrs ++ '>' :: b) = ((p1 :: r) ++ attrs) ++ '>' :: b := by
        simp
      rw [hrest, hrest2] at h1
      obtain ⟨b1, ho, hb⟩ := CodeIns_copy_run _ hq b _ h1
      refine ⟨[], b1, ?_, CodeIns.nil, hb⟩
      rw [ho, hc, hPe]
      simp
    | cons d a1 =>
      simp only [List.cons_append, List.cons.injEq] at hs
      obtain ⟨hc, hrest⟩ := hs
      have hcl : tagsClosed a1 = true := by
        simp only [tagsClosed, Bool.and_eq_true] at hclosed
        exact hclosed.2
      obtain ⟨a2, b1, ho, ha, hb⟩ := ih a1 P attrs b hrest hP hattrs hcl
      refine ⟨c :: a2, b1, by rw [ho]; rfl, ?_, hb⟩
      rw [← hc]
      exact CodeIns.copy c ha
  | ins u1 u2 x hu1 hu2 h1 ih =>
    intro a P attrs b hs hP hattrs hclosed
    obtain ⟨c1, r1, hu, hc1⟩ := codeOpen_shape u1 hu1
    cases a with
    | nil =>
      obtain ⟨p1, r, hPe, hp1, -⟩ := preOpen_shape P hP
      rw [hu, hPe] at hs
      simp only [List.nil_append, List.cons_append, List.cons.injEq, true_and] at hs
      rw [hs.1] at hc1
      exact absurd (foldEq_c_p _ hc1 hp1) id
    | cons d a1 =>
      have hd : d = '<' := by
        rw [hu] at hs
        simp only [List.cons_append, List.cons.injEq] at hs
        exact hs.1.symm
      have hmem : '>' ∈ d :: a1 := by
        simp only [tagsClosed, Bool.and_eq_true, Bool.or_eq_true, bne_iff_ne, ne_eq,
          hd, not_true_eq_false, false_or] at hclosed
        exact List.mem_cons_of_mem _ (List.elem_iff.mp hclosed.1)
      have hu12 : ∀ c ∈ u1 ++ u2, c ≠ '>' := by
        intro c hc
        rcases List.mem_append.mp hc with h0 | h0
        · exact foldMatches_no_gt _ _ hu1 (by decide) c h0
        · exact hu2 c h0
      obtain ⟨a2, ha, hrest⟩ := first_gt_split (u1 ++ u2) (d :: a1) _ _ hu12 hs hmem
      have hcl : tagsClosed a2 = true := by
        rw [ha] at hclosed
        have := tagsClosed_append_right (u1 ++ u2) ('>' :: a2) hclosed
        simp only [tagsClosed, Bool.and_eq_true] at this
        exact this.2
      obtain ⟨a3, b1, ho, ha3, hb⟩ := ih a2 P attrs b hrest hP hattrs hcl
      refine ⟨u1 ++ u2 ++ x ++ '>' :: a3, b1, ?_, ?_, hb⟩
      · rw [ho]; simp
      · rw [ha]
        exact CodeIns.ins u1 u2 x hu1 hu2 ha3

/-! ## The tag-level passes over a whole document -/

theorem addInlineStyleToTag_eq (h T S : Str) :
    addInlineStyleToTag h T S =
      replaceAllFunc (tagPattern T) (fun m => styleTagText S m.text) h := rfl

theorem convertToInlineStyles_eq (w : WeChatHTMLConverter) (h : Str) :
    convertToInlineStyles w h =
      if trimSpace w.preCode ≠ [] then addInlineStyleToPreCode (w.styles.foldl tagPass h) w.preCode
      else w.styles.foldl tagPass h := rfl

/-- A pattern character matches a character that folding leaves alone only when it is
that character. -/
theorem foldEq_right_fixed (a d : Char) (hd1 : toLowerChar d = d) (hd2 : d.isLower = false)
    (hd3 : (d.toNat == 0x212A) = false) (hd4 : (d.toNat == 0x17F) = false)
    (h : foldEq a d = true) : a = d := by
  unfold foldEq at h
  simp only [Bool.or_eq_true, Bool.and_eq_true, decide_eq_true_eq, hd1, hd3, hd4, and_false,
    or_false, Bool.false_eq_true] at h
  rcases h with h | ⟨h1, h2⟩
  · exact h
  · rw [h2, hd2] at h1; exact absurd h1 (by decide)

theorem isDelim_cases (d : Char) (h : isDelim d = true) :
    d = '\t' ∨ d = '\n' ∨ d = Char.ofNat 12 ∨ d = '\r' ∨ d = ' ' ∨ d = '<' ∨ d = '>' ∨
      d = '/' := by
  unfold isDelim reSpace at h
  simp only [Bool.or_eq_true, decide_eq_true_eq, beq_iff_eq] at h
  rcases h with ((((((h | h) | h) | h) | h) | h) | h) | h
  · exact Or.inl h
  · exact Or.inr (Or.inl h)
  · refine Or.inr (Or.inr (Or.inl ?_))
    rw [← Char.ofNat_toNat d, h]
  · exact Or.inr (Or.inr (Or.inr (Or.inl h)))
  · exact Or.inr (Or.inr (Or.inr (Or.inr (Or.inl h))))
  · exact Or.inr (Or.inr (Or.inr (Or.inr (Or.inr (Or.inl h)))))
  · exact Or.inr (Or.inr (Or.inr (Or.inr (Or.inr (Or.inr (Or.inl h))))))
  · exact Or.inr (Or.inr (Or.inr (Or.inr (Or.inr (Or.inr (Or.inr h))))))

/-- A tag-name character of a pattern never matches a delimiter. -/
theorem foldEq_delim (a x : Char) (ha : isTagNameChar a = true) (hx : isDelim x = true) :
    foldEq a x = false := by
  cases hf : foldEq a x with
  | false => rfl
  | true =>
    exfalso
    have key : ∀ d : Char, toLowerChar d = d → d.isLower = false →
        (d.toNat == 0x212A) = false → (d.toNat == 0x17F) = false →
        isTagNameChar d = false → x = d → False := by
      intro d h1 h2 h3 h4 h5 hxd
      subst hxd
      have := foldEq_right_fixed a x h1 h2 h3 h4 hf
      subst this
      rw [h5] at ha
      exact absurd ha (by decide)
    rcases isDelim_cases x hx with h | h | h | h | h | h | h | h
    · exact key _ (by decide) (by decide) (by decide) (by decide) (by decide) h
    · exact key _ (by decide) (by decide) (by decide) (by decide) (by decide) h
    · exact key _ (by decide) (by decide) (by decide) (by decide) (by decide) h
    · exact key _ (by decide) (by decide) (by decide) (by decide) (by decide) h
    · exact key _ (by decide) (by decide) (by decide) (by decide) (by decide) h
    · exact key _ (by decide) (by decide) (by decide) (by decide) (by decide) h
    · exact key _ (by decide) (by decide) (by decide) (by decide) (by decide) h
    · exact key _ (by decide) (by decide) (by decide) (by decide) (by decide) h

/-- The text matched by a tag name contains no delimiter. -/
theorem foldMatches_nodelim (T : Str) : ∀ N : Str, isTagName T = true →
    foldMatches T N = true → ∀ c ∈ N, isDelim c = false := by
  induction T with
  | nil =>
    intro N _ h c hc
    cases N with
    | nil => simp at hc
    | cons n ns => simp [foldMatches] at h
  | cons t ts ih =>
    intro N hT h c hc
    cases N with
    | nil => simp at hc
    | cons n ns =>
      simp only [foldMatches, Bool.and_eq_true] at h
      simp only [isTagName, List.all_cons, Bool.and_eq_true] at hT
      rcases List.mem_cons.mp hc with h0 | h0
      · subst h0
        cases hd : isDelim c with
        | false => rfl
        | true => rw [foldEq_delim t c hT.1 hd] at h; exact absurd h.1 (by decide)
      · exact ih ns hT.2 h.2 c h0

theorem nodelim_ne_gt (c : Char) (h : isDelim c = false) : c ≠ '>' := by
  intro e; subst e; exact absurd h (by decide)

theorem nodelim_ne_lt (c : Char) (h : isDelim c = false) : c ≠ '<' := by
  intro e; subst e; exact absurd h (by decide)

theorem nodelim_not_space (c : Char) (h : isDelim c = false) : reSpace c = false := by
  unfold isDelim at h
  simp only [Bool.or_eq_false_iff] at h
  exact h.1.1.1

theorem isDelim_of_space (c : Char) (h : reSpace c = true) : isDelim c = true := by
  unfold isDelim; simp [h]

/-- The text after the name of a tag starts with a delimiter. -/
theorem tagTail_head (Z r : Str) (hZ : Z = [] ∨ startsWs Z = true) :
    ∃ d t, Z ++ '>' :: r = d :: t ∧ isDelim d = true := by
  cases Z with
  | nil => exact ⟨'>', r, rfl, by decide⟩
  | cons z zs =>
    rcases hZ with h | h
    · exact absurd h (by simp)
    · exact ⟨z, zs ++ '>' :: r, rfl, isDelim_of_space z h⟩

/-- Two runs of characters without delimiter, each followed by a delimiter, that start
the same text are equal. -/
theorem nodelim_run_unique : ∀ (N N2 : Str) (d1 d2 : Char) (t1 t2 : Str),
    (∀ c ∈ N, isDelim c = false) → (∀ c ∈ N2, isDelim c = false) →
    isDelim d1 = true → isDelim d2 = true →
    N ++ d1 :: t1 = N2 ++ d2 :: t2 → N = N2 ∧ d1 :: t1 = d2 :: t2 := by
  intro N
  induction N with
  | nil =>
    intro N2 d1 d2 t1 t2 _ h2 hd1 _ h
    cases N2 with
    | nil => exact ⟨rfl, h⟩
    | cons n ns =>
      simp only [List.nil_append, List.cons_append, List.cons.injEq] at h
      have := h2 n (List.mem_cons_self _ _)
      rw [← h.1, hd1] at this
      exact absurd this (by decide)
  | cons c cs ih =>
    intro N2 d1 d2 t1 t2 h1 h2 hd1 hd2 h
    cases N2 with
    | nil =>
      simp only [List.nil_append, List.cons_append, List.cons.injEq] at h
      have := h1 c (List.mem_cons_self _ _)
      rw [h.1, hd2] at this
      exact absurd this (by decide)
    | cons n ns =>
      simp only [List.cons_append, List.cons.injEq] at h
      obtain ⟨e1, e2⟩ := ih ns d1 d2 t1 t2 (fun x hx => h1 x (List.mem_cons_of_mem _ hx))
        (fun x hx => h2 x (List.mem_cons_of_mem _ hx)) hd1 hd2 h.2
      exact ⟨by rw [h.1, e1], e2⟩

/-- A match of the tag pattern is an opening tag `<N attrs>`: `N` the tag name in some
letter case, `attrs` empty or starting with white space, no `>` before the final one. -/
theorem tagPattern_exec_inv (T t : Str) (m : Match) (h : (tagPattern T).exec t = some m) :
    ∃ N attrs, foldMatches T N = true ∧ (attrs = [] ∨ startsWs attrs = true) ∧
      (∀ c ∈ attrs, c ≠ '>') ∧ t = '<' :: N ++ attrs ++ '>' :: m.rest ∧
      m.text = '<' :: N ++ attrs ++ ['>'] := by
  have key : ∃ N attrs, foldMatches T N = true ∧ (attrs = [] ∨ startsWs attrs = true) ∧
      (∀ c ∈ attrs, c ≠ '>') ∧ t = '<' :: N ++ attrs ++ '>' :: m.rest := by
    have h0 := h
    simp only [tagPattern, Re.cat, Re.opt, Re.chrI, Re.exec, Re.run] at h0
    cases t with
    | nil => simp [Re.run] at h0
    | cons c t1 =>
      by_cases hc : foldEq '<' c = true
      · simp only [Re.run, hc, if_true] at h0
        rw [foldEq_lt] at hc
        have hc' : '<' = c := by simpa using hc
        subst hc'
        obtain ⟨N, s2, hs2, hN, hk⟩ := litI_run_some T t1 _ _ m h0
        subst hs2
        cases s2 with
        | nil => simp [Re.run] at hk
        | cons w s3 =>
          by_cases hw : reSpace w = true
          · have hwg : foldEq '>' w = false := by
              rw [foldEq_gt]
              have : ¬ '>' = w := by
                intro e; subst e; exact absurd hw (by decide)
              simp [this]
            simp only [Re.run, hw, if_true, hwg, Bool.false_eq_true, if_false] at hk
            rw [starRun_greedy_fail] at hk
            · cases hd : s3.dropWhile notGt with
              | nil => rw [hd] at hk; simp [Re.run] at hk
              | cons d rest =>
                rw [hd] at hk
                by_cases hdg : foldEq '>' d = true
                · simp only [Re.run, hdg, if_true, Option.some.injEq] at hk
                  rw [foldEq_gt] at hdg
                  have hd' : '>' = d := by simpa using hdg
                  subst hd'
                  refine ⟨N, w :: s3.takeWhile notGt, hN, Or.inr hw, ?_, ?_⟩
                  · intro c hc
                    rcases List.mem_cons.mp hc with h1 | h1
                    · intro e; rw [e] at h1; subst h1; exact absurd hw (by decide)
                    · have := List.mem_takeWhile_imp h1
                      simpa [notGt] using this
                  · rw [← hk]
                    simp only [List.cons_append, List.append_assoc, List.cons.injEq, true_and,
                      List.append_cancel_left_eq]
                    rw [← hd, List.takeWhile_append_dropWhile]
                · simp [Re.run, hdg] at hk
            · intro c cs hc
              have : c ≠ '>' := by simpa [notGt] using hc
              simp [Re.run, foldEq_gt, this.symm]
          · by_cases hwg : foldEq '>' w = true
            · simp only [Re.run, hw, Bool.false_eq_true, if_false, hwg, if_true,
                Option.some.injEq] at hk
              rw [foldEq_gt] at hwg
              have hw' : '>' = w := by simpa using hwg
              subst hw'
              refine ⟨N, [], hN, Or.inl rfl, by simp, ?_⟩
              rw [← hk]
              simp
            · simp [Re.run, hw, hwg] at hk
      · simp [Re.run, hc] at h0
  obtain ⟨N, attrs, hN, hws, hgt, ht⟩ := key
  refine ⟨N, attrs, hN, hws, hgt, ht, ?_⟩
  have hs := (tagPattern T).exec_sound _ m h
  have e : '<' :: N ++ attrs ++ '>' :: m.rest = ('<' :: N ++ attrs ++ ['>']) ++ m.rest := by
    simp
  rw [ht, e] at hs
  exact List.append_cancel_right hs

/-- Over a text `a` that leaves no tag open, a tag-level pass works on `a` and on the
text after it independently. -/
theorem tagPass_split (T : Str) (g : Str → Str) (hT : isTagName T = true) (t : Str) :
    ∀ a, tagsClosed a = true →
      replaceAllFunc (tagPattern T) (fun m => g m.text) (a ++ t) =
        replaceAllFunc (tagPattern T) (fun m => g m.text) a ++
          replaceAllFunc (tagPattern T) (fun m => g m.text) t := by
  apply replaceAll_induction (tagPattern T) rfl
  · intro _; rw [replaceAllFunc_nil]; rfl
  · intro c cs hnone ih hcl
    have hcl2 : tagsClosed cs = true := by
      simp only [tagsClosed, Bool.and_eq_true] at hcl
      exact hcl.2
    have hnone2 : (tagPattern T).exec (c :: cs ++ t) = none := by
      cases hx : (tagPattern T).exec (c :: cs ++ t) with
      | none => rfl
      | some m =>
        exfalso
        obtain ⟨N, attrs, hN, hws, hgt, ht, -⟩ := tagPattern_exec_inv T _ m hx
        have hc : c = '<' := by
          simp only [List.cons_append, List.cons.injEq] at ht
          exact ht.1
        have hmem : '>' ∈ c :: cs := by
          simp only [tagsClosed, Bool.and_eq_true, Bool.or_eq_true, bne_iff_ne, ne_eq,
            hc, not_true_eq_false, false_or] at hcl
          exact List.mem_cons_of_mem _ (List.elem_iff.mp hcl.1)
        have hu : ∀ x ∈ '<' :: N ++ attrs, x ≠ '>' := by
          intro x hx
          simp only [List.cons_append, List.mem_cons, List.mem_append] at hx
          rcases hx with h0 | h0 | h0
          · rw [h0]; decide
          · exact nodelim_ne_gt x (foldMatches_nodelim T N hT hN x h0)
          · exact hgt x h0
        obtain ⟨a2, ha, -⟩ := first_gt_split ('<' :: N ++ attrs) (c :: cs) m.rest t hu ht.symm hmem
        obtain ⟨m2, hm2, -, -⟩ := tagPattern_exec T N attrs a2 hN hws hgt
        rw [ha, hm2] at hnone
        exact absurd hnone (by simp)
    rw [List.cons_append, replaceAllFunc_cons_none _ _ c (cs ++ t) hnone2,
      replaceAllFunc_cons_none _ _ _ _ hnone, ih hcl2]
    rfl
  · intro s m hm hne hsplit ih hcl
    obtain ⟨N, attrs, hN, hws, hgt, ht, htext⟩ := tagPattern_exec_inv T s m hm
    have hcl2 : tagsClosed m.rest = true := by
      rw [← hsplit] at hcl
      exact tagsClosed_append_right _ _ hcl
    obtain ⟨m2, hm2, htext2, hrest2⟩ := tagPattern_exec T N attrs (m.rest ++ t) hN hws hgt
    have e : s ++ t = '<' :: N ++ attrs ++ '>' :: (m.rest ++ t) := by
      conv_lhs => rw [ht]
      simp
    rw [replaceAllFunc_some _ _ s m hm hne, e,
      replaceAllFunc_some _ _ _ m2 hm2 (by rw [htext2]; simp), hrest2, ih hcl2]
    simp only [htext, htext2, List.append_assoc]

/-- On an opening tag without `style=` text the callback of `addInlineStyleToTag` writes
the tag with a fresh style attribute. -/
theorem styleTagText_fresh (S N attrs : Str) (hgt : ∀ c ∈ N ++ attrs, c ≠ '>')
    (hstyle : containsStr "style=".toList (toLower ('<' :: N ++ attrs ++ ['>'])) = false) :
    styleTagText S ('<' :: N ++ attrs ++ ['>']) = styledTag N attrs S := by
  unfold styleTagText styledTag
  rw [if_neg (by rw [hstyle]; simp),
    show '<' :: N ++ attrs ++ ['>'] = '<' :: (N ++ attrs) ++ ['>'] by simp,
    trimSpace_tag, hasSuffix_tag]
  by_cases hl : (N ++ attrs).getLast? = some '/'
  · simp only [hl, decide_True, if_true]
    have hsplit : N ++ attrs = (N ++ attrs).dropLast ++ ['/'] :=
      (List.dropLast_append_getLast? _ hl).symm
    have hd : ∀ c ∈ '<' :: (N ++ attrs).dropLast, c ≠ '>' := by
      intro c hc
      rcases List.mem_cons.mp hc with h0 | h0
      · rw [h0]; decide
      · exact hgt c (List.mem_of_mem_dropLast h0)
    have e1 : '<' :: (N ++ attrs) ++ ['>'] = ('<' :: (N ++ attrs).dropLast) ++ ['/', '>'] := by
      conv_lhs => rw [hsplit]
      simp
    rw [e1]
    exact replaceFirst_slashGt _ _ hd
  · simp only [hl, decide_False, Bool.false_eq_true, if_false]
    have hd : ∀ c ∈ '<' :: (N ++ attrs), c ≠ '>' := by
      intro c hc
      rcases List.mem_cons.mp hc with h0 | h0
      · rw [h0]; decide
      · exact hgt c h0
    have := replaceFirst_gt (" style=\"".toList ++ escapeString S ++ "\">".toList) _ hd
    simpa using this

/-- A match of the style-attribute pattern ends with a quote. -/
theorem styleAttr_exec_last (s : Str) (m : Match) (h : styleAttrPattern.exec s = some m) :
    ∃ t q, m.text = t ++ [q] ∧ isQuote q = true := by
  have h1 : (Re.grp 1 (.seq (.litI "style=".toList) (.cls isQuote))).run s []
      (fun s1 c1 => (Re.grp 2 (.star notQuote true)).run s1 c1
        (fun s2 c2 => (Re.grp 3 (.cls isQuote)).run s2 c2
          (fun s3 caps => some (⟨s.take (s.length - s3.length), s3, caps⟩ : Match)))) =
      some m := h
  obtain ⟨s1, caps1, hs1, -, h2⟩ := Re.run_suffix _ _ _ _ _ h1
  obtain ⟨s2, caps2, hs2, -, h3⟩ := Re.run_suffix _ _ _ _ _ h2
  cases s2 with
  | nil => simp [Re.run] at h3
  | cons q s3 =>
    by_cases hq : isQuote q = true
    · simp only [Re.run, hq, if_true, Option.some.injEq] at h3
      obtain ⟨p, hp⟩ := hs2.trans hs1
      refine ⟨p, q, ?_, hq⟩
      rw [← h3, ← hp]
      have e1 : (p ++ q :: s3).length - s3.length = (p ++ [q]).length := by
        simp only [List.length_append, List.length_cons, List.length_nil]
        omega
      have e2 : p ++ q :: s3 = (p ++ [q]) ++ s3 := by simp
      show List.take ((p ++ q :: s3).length - s3.length) (p ++ q :: s3) = p ++ [q]
      rw [e1, e2]
      exact List.take_left' rfl
    · simp [Re.run, hq] at h3

/-- Merging into the style attributes of a text that ends in `>` keeps that `>`. -/
theorem styleMerge_ends (tpl : Str) :
    ∀ s x, s = x ++ ['>'] → ∃ Y, replaceAllString styleAttrPattern tpl s = Y ++ ['>'] := by
  unfold replaceAllString
  apply replaceAll_induction styleAttrPattern rfl
  · intro x h
    cases x <;> simp at h
  · intro c cs _ ih x hx
    rw [replaceAllFunc_cons_none _ _ _ _ (by assumption)]
    cases x with
    | nil =>
      simp only [List.nil_append, List.cons.injEq] at hx
      rw [hx.1, hx.2, replaceAllFunc_nil]
      exact ⟨[], rfl⟩
    | cons x0 xs =>
      simp only [List.cons_append, List.cons.injEq] at hx
      obtain ⟨Y, hY⟩ := ih xs hx.2
      exact ⟨c :: Y, by rw [hY]; rfl⟩
  · intro s m hm hne hsplit ih x hx
    rw [replaceAllFunc_some _ _ _ m hm hne]
    obtain ⟨t, q, htext, hq⟩ := styleAttr_exec_last s m hm
    rcases List.eq_nil_or_concat m.rest with hr | ⟨r, e, hr⟩
    · exfalso
      rw [hr, htext, hx] at hsplit
      simp only [List.append_nil] at hsplit
      have := List.append_inj_right' hsplit rfl
      simp only [List.cons.injEq, and_true] at this
      rw [this] at hq
      exact absurd hq (by decide)
    · rw [List.concat_eq_append] at hr
      have he : e = '>' := by
        rw [hr, hx, ← List.append_assoc] at hsplit
        have := List.append_inj_right' hsplit rfl
        simpa using this
      obtain ⟨Y, hY⟩ := ih r (by rw [hr, he])
      exact ⟨_ ++ Y, by rw [hY, List.append_assoc]⟩

/-- The callback of `addInlineStyleToTag` returns a text that ends in `>`. -/
theorem styleTagText_ends (S x : Str) (hx : ∀ c ∈ x, c ≠ '>') :
    ∃ Y, styleTagText S ('<' :: x ++ ['>']) = Y ++ ['>'] := by
  unfold styleTagText
  by_cases h1 : containsStr "style=".toList (toLower ('<' :: x ++ ['>'])) = true
  · rw [if_pos h1]
    exact styleMerge_ends _ _ ('<' :: x) rfl
  · rw [if_neg h1, trimSpace_tag, hasSuffix_tag]
    by_cases hl : x.getLast? = some '/'
    · simp only [hl, decide_True, if_true]
      have hsplit : x = x.dropLast ++ ['/'] := (List.dropLast_append_getLast? _ hl).symm
      have hd : ∀ c ∈ '<' :: x.dropLast, c ≠ '>' := by
        intro c hc
        rcases List.mem_cons.mp hc with h0 | h0
        · rw [h0]; decide
        · exact hx c (List.mem_of_mem_dropLast h0)
      have e1 : '<' :: x ++ ['>'] = ('<' :: x.dropLast) ++ ['/', '>'] := by
        conv_lhs => rw [hsplit]
        simp
      rw [e1]
      refine ⟨('<' :: x.dropLast) ++ (" style=\"".toList ++ escapeString S ++ "\" /".toList), ?_⟩
      rw [show "/>".toList = ['/', '>'] from rfl, replaceFirst_slashGt _ _ hd]
      simp
    · simp only [hl, decide_False, Bool.false_eq_true, if_false]
      have hd : ∀ c ∈ '<' :: x, c ≠ '>' := by
        intro c hc
        rcases List.mem_cons.mp hc with h0 | h0
        · rw [h0]; decide
        · exact hx c h0
      refine ⟨('<' :: x) ++ (" style=\"".toList ++ escapeString S ++ "\"".toList), ?_⟩
      rw [show ">".toList = ['>'] from rfl, replaceFirst_gt _ _ hd]
      simp

theorem TagRw_refl : ∀ s : Str, TagRw s s := by
  intro s
  induction s with
  | nil => exact TagRw.nil
  | cons c cs ih => exact TagRw.copy c ih

theorem TagRw_mem_gt {s o : Str} (h : TagRw s o) : '>' ∈ s → '>' ∈ o := by
  induction h with
  | nil => intro h; exact h
  | copy c _ ih =>
    intro h
    rcases List.mem_cons.mp h with h0 | h0
    · rw [h0]; exact List.mem_cons_self _ _
    · exact List.mem_cons_of_mem _ (ih h0)
  | tag u y _ _ _ =>
    intro _
    exact List.mem_append_right _ (List.mem_cons_self _ _)

theorem tagsClosed_prepend (y o : Str) (h : tagsClosed o = true) :
    tagsClosed (y ++ '>' :: o) = true := by
  induction y with
  | nil =>
    simp only [List.nil_append, tagsClosed, Bool.and_eq_true]
    exact ⟨by simp, h⟩
  | cons c cs ih =>
    simp only [List.cons_append, tagsClosed, Bool.and_eq_true, Bool.or_eq_true]
    exact ⟨Or.inr (List.elem_iff.mpr (List.mem_append_right _ (List.mem_cons_self _ _))), ih⟩

/-- Rewriting tags leaves no tag open. -/
theorem TagRw_closed {s o : Str} (h : TagRw s o) : tagsClosed s = true → tagsClosed o = true := by
  induction h with
  | nil => intro h; exact h
  | @copy c s o h1 ih =>
    intro h
    simp only [tagsClosed, Bool.and_eq_true, Bool.or_eq_true] at h ⊢
    refine ⟨?_, ih h.2⟩
    rcases h.1 with h0 | h0
    · exact Or.inl h0
    · exact Or.inr (List.elem_iff.mpr (TagRw_mem_gt h1 (List.elem_iff.mp h0)))
  | @tag u y s o _ _ ih =>
    intro h
    have e : '<' :: u ++ '>' :: s = ('<' :: u ++ ['>']) ++ s := by simp
    rw [e] at h
    exact tagsClosed_prepend y o (ih (tagsClosed_append_right _ _ h))

/-- What the pre-code pass does is a rewriting of tags. -/
theorem CodeIns_TagRw {s o : Str} (h : CodeIns s o) : TagRw s o := by
  induction h with
  | nil => exact TagRw.nil
  | copy c _ ih => exact TagRw.copy c ih
  | @ins u1 u2 x s o hu1 hu2 _ ih =>
    obtain ⟨c1, r, hu, -⟩ := codeOpen_shape u1 hu1
    have hno : ∀ c ∈ (c1 :: r) ++ u2, c ≠ '>' := by
      intro c hc
      rcases List.mem_append.mp hc with h0 | h0
      · exact foldMatches_no_gt _ _ hu1 (by decide) c (by rw [hu]; exact List.mem_cons_of_mem _ h0)
      · exact hu2 c h0
    have := TagRw.tag ((c1 :: r) ++ u2) (u1 ++ u2 ++ x) hno ih
    have e : u1 ++ u2 ++ '>' :: s = '<' :: ((c1 :: r) ++ u2) ++ '>' :: s := by rw [hu]; simp
    rw [e]
    exact this

/-- A tag-level pass is a rewriting of tags. -/
theorem addInlineStyleToTag_TagRw (T S : Str) (hT : isTagName T = true) :
    ∀ s, TagRw s (addInlineStyleToTag s T S) := by
  intro s
  rw [addInlineStyleToTag_eq]
  revert s
  apply replaceAll_induction (tagPattern T) rfl
  · rw [replaceAllFunc_nil]; exact TagRw.nil
  · intro c cs h ih
    rw [replaceAllFunc_cons_none _ _ _ _ h]
    exact TagRw.copy c ih
  · intro s m hm hne _ ih
    rw [replaceAllFunc_some _ _ _ m hm hne]
    obtain ⟨N, attrs, hN, -, hgt, ht, htext⟩ := tagPattern_exec_inv T s m hm
    have hu : ∀ c ∈ N ++ attrs, c ≠ '>' := by
      intro c hc
      rcases List.mem_append.mp hc with h0 | h0
      · exact nodelim_ne_gt c (foldMatches_nodelim T N hT hN c h0)
      · exact hgt c h0
    have e1 : m.text = '<' :: (N ++ attrs) ++ ['>'] := by rw [htext]; simp
    obtain ⟨Y, hY⟩ := styleTagText_ends S (N ++ attrs) hu
    have e2 : s = '<' :: (N ++ attrs) ++ '>' :: m.rest := by rw [ht]; simp
    have := TagRw.tag (N ++ attrs) Y hu ih
    rw [← e2] at this
    simp only [e1, hY, List.append_assoc]
    exact this

/-- A single tag-level pass at its first match: when no match of the tag pattern starts
in the text `a` before the opening tag `<N attrs>` of `T`, and the tag has no `style=`
text, the pass copies `a`, writes the tag with its fresh style attribute, and continues
on the text after the tag. -/
theorem addInlineStyleToTag_fresh (T S N attrs a post : Str)
    (hT : isTagName T = true)
    (hN : foldMatches T N = true)
    (hws : attrs = [] ∨ startsWs attrs = true)
    (hgt : ∀ c ∈ attrs, c ≠ '>')
    (hstyle : containsStr "style=".toList (toLower ('<' :: N ++ attrs ++ ['>'])) = false)
    (hbefore : noMatchBefore (tagPattern T) a ('<' :: N ++ attrs ++ '>' :: post) = true) :
    addInlineStyleToTag (a ++ ('<' :: N ++ attrs ++ '>' :: post)) T S =
      a ++ styledTag N attrs S ++ addInlineStyleToTag post T S := by
  obtain ⟨m, hm, htext, hrest⟩ := tagPattern_exec T N attrs post hN hws hgt
  have hNa : ∀ c ∈ N ++ attrs, c ≠ '>' := by
    intro c hc
    rcases List.mem_append.mp hc with h0 | h0
    · exact nodelim_ne_gt c (foldMatches_nodelim T N hT hN c h0)
    · exact hgt c h0
  simp only [addInlineStyleToTag_eq]
  rw [replaceAllFunc_noMatchBefore _ _ _ _ hbefore,
    replaceAllFunc_some _ _ _ m hm (by rw [htext]; simp), hrest, htext,
    styleTagText_fresh S N attrs hNa hstyle, List.append_assoc]

/-- The single pass at `<div><P align="left">x</P>` and at `<p>a</p><hr />` for the
entries `p` and `hr`: the normal tag gets ` style="color: red;">`, the self-closing one
` style="color: red;" />`. -/
theorem addInlineStyleToTag_fresh_at :
    addInlineStyleToTag ("<div>".toList ++
        ('<' :: "P".toList ++ " align=\"left\"".toList ++ '>' :: "x</P>".toList))
        "p".toList "color: red;".toList
      = "<div><P align=\"left\" style=\"color: red;\">x</P>".toList
    ∧ addInlineStyleToTag ("<p>a</p>".toList ++
        ('<' :: "hr".toList ++ " /".toList ++ '>' :: []))
        "hr".toList "color: red;".toList
      = "<p>a</p><hr  style=\"color: red;\" />".toList :=
  ⟨(addInlineStyleToTag_fresh "p".toList "color: red;".toList "P".toList
      " align=\"left\"".toList "<div>".toList "x</P>".toList
      (by decide) (by decide) (by decide) (by decide) (by decide) (by decide)).trans
      (by decide),
   (addInlineStyleToTag_fresh "hr".toList "color: red;".toList "hr".toList
      " /".toList "<p>a</p>".toList []
      (by decide) (by decide) (by decide) (by decide) (by decide) (by decide)).trans
      (by decide)⟩

theorem tagPattern_exec_head (T : Str) (c : Char) (s : Str) (hc : c ≠ '<') :
    (tagPattern T).exec (c :: s) = none := by
  cases hx : (tagPattern T).exec (c :: s) with
  | none => rfl
  | some m =>
    obtain ⟨N, attrs, -, -, -, ht, -⟩ := tagPattern_exec_inv T _ m hx
    simp only [List.cons_append, List.cons.injEq] at ht
    exact absurd ht.1 hc

theorem noMatchBefore_no_lt (T : Str) (t : Str) :
    ∀ a : Str, (∀ c ∈ a, c ≠ '<') → noMatchBefore (tagPattern T) a t = true := by
  intro a
  induction a with
  | nil => intro _; rfl
  | cons c cs ih =>
    intro h
    simp only [noMatchBefore, Bool.and_eq_true, Option.isNone_iff_eq_none]
    exact ⟨tagPattern_exec_head T c _ (h c (List.mem_cons_self _ _)),
      ih (fun d hd => h d (List.mem_cons_of_mem _ hd))⟩

/-- A tag-level pass for a name that does not match the name of a tag leaves that tag
as it is and continues after it. -/
theorem tagPass_foreign (T2 : Str) (g : Str → Str) (N Z post : Str)
    (hT2 : isTagName T2 = true) (hTN : foldMatches T2 N = false)
    (hN : ∀ c ∈ N, isDelim c = false)
    (hZ : Z = [] ∨ startsWs Z = true) (hZlt : ∀ c ∈ Z, c ≠ '<') :
    replaceAllFunc (tagPattern T2) (fun m => g m.text) ('<' :: N ++ Z ++ '>' :: post) =
      '<' :: N ++ Z ++ '>' :: replaceAllFunc (tagPattern T2) (fun m => g m.text) post := by
  have hhead : (tagPattern T2).exec ('<' :: (N ++ Z ++ ['>']) ++ post) = none := by
    cases hx : (tagPattern T2).exec ('<' :: (N ++ Z ++ ['>']) ++ post) with
    | none => rfl
    | some m =>
      exfalso
      obtain ⟨N2, attrs2, hN2, hws2, -, ht, -⟩ := tagPattern_exec_inv T2 _ m hx
      obtain ⟨d1, t1, e1, hd1⟩ := tagTail_head Z post hZ
      obtain ⟨d2, t2, e2, hd2⟩ := tagTail_head attrs2 m.rest hws2
      have ht2 : N ++ d1 :: t1 = N2 ++ d2 :: t2 := by
        rw [← e1, ← e2]
        simp only [List.cons_append, List.cons.injEq, true_and, List.append_assoc,
          List.singleton_append] at ht
        exact ht
      have := (nodelim_run_unique N N2 d1 d2 t1 t2 hN (foldMatches_nodelim T2 N2 hT2 hN2)
        hd1 hd2 ht2).1
      rw [this, hN2] at hTN
      exact absurd hTN (by decide)
  have htail : ∀ c ∈ N ++ Z ++ ['>'], c ≠ '<' := by
    intro c hc
    simp only [List.mem_append, List.mem_singleton] at hc
    rcases hc with (h0 | h0) | h0
    · exact nodelim_ne_lt c (hN c h0)
    · exact hZlt c h0
    · rw [h0]; decide
  have hnb : noMatchBefore (tagPattern T2) ('<' :: (N ++ Z ++ ['>'])) post = true := by
    simp only [noMatchBefore, Bool.and_eq_true, Option.isNone_iff_eq_none]
    exact ⟨hhead, noMatchBefore_no_lt T2 post _ htail⟩
  have e : '<' :: N ++ Z ++ '>' :: post = ('<' :: (N ++ Z ++ ['>'])) ++ post := by simp
  rw [e, replaceAllFunc_noMatchBefore _ _ _ _ hnb]
  simp

theorem escapeString_no_angle : ∀ (S : Str) (c : Char), c ∈ escapeString S →
    c ≠ '<' ∧ c ≠ '>' := by
  intro S
  induction S with
  | nil => intro c hc; simp [escapeString] at hc
  | cons x xs ih =>
    intro c hc
    simp only [escapeString, List.mem_append] at hc
    rcases hc with h0 | h0
    · unfold escapeChar at h0
      have key : ∀ l : Str, (∀ d ∈ l, d ≠ '<' ∧ d ≠ '>') → c ∈ l → c ≠ '<' ∧ c ≠ '>' :=
        fun l hl hc => hl c hc
      split at h0
      · exact key _ (by decide) h0
      · split at h0
        · exact key _ (by decide) h0
        · split at h0
          · exact key _ (by decide) h0
          · split at h0
            · exact key _ (by decide) h0
            · split at h0
              · exact key _ (by decide) h0
              · simp only [List.mem_singleton] at h0
                subst h0
                constructor <;> assumption
    · exact ih c h0

/-- The tag with its fresh style attribute is again an opening tag with the same name,
white space after the name, and no `<` or `>` before its final `>`. -/
theorem styledTag_shape (N attrs S : Str) (hN : ∀ c ∈ N, isDelim c = false)
    (hws : attrs = [] ∨ startsWs attrs = true) (hattrs : ∀ c ∈ attrs, c ≠ '<' ∧ c ≠ '>') :
    ∃ Z, styledTag N attrs S = '<' :: N ++ Z ++ ['>'] ∧ startsWs Z = true ∧
      (∀ c ∈ Z, c ≠ '<' ∧ c ≠ '>') := by
  have hE := escapeString_no_angle S
  unfold styledTag
  by_cases hl : (N ++ attrs).getLast? = some '/'
  · rw [if_pos hl]
    cases attrs with
    | nil =>
      exfalso
      rw [List.append_nil] at hl
      have := hN '/' (List.mem_of_mem_getLast? (Option.mem_def.mpr hl))
      exact absurd this (by decide)
    | cons w l =>
      have hw : reSpace w = true := by
        rcases hws with h | h
        · exact absurd h (by simp)
        · exact h
      rcases List.eq_nil_or_concat l with h0 | ⟨l2, e, h0⟩
      · exfalso
        subst h0
        rw [List.getLast?_concat] at hl
        simp only [Option.some.injEq] at hl
        subst hl
        exact absurd hw (by decide)
      · rw [List.concat_eq_append] at h0
        subst h0
        have e1 : N ++ w :: (l2 ++ [e]) = (N ++ w :: l2) ++ [e] := by simp
        rw [e1] at hl ⊢
        rw [List.getLast?_concat] at hl
        simp only [Option.some.injEq] at hl
        subst hl
        rw [List.dropLast_concat]
        refine ⟨(w :: l2) ++ (" style=\"".toList ++ escapeString S ++ "\" /".toList),
          by simp, hw, ?_⟩
        intro c hc
        simp only [List.mem_append] at hc
        rcases hc with h1 | (h1 | h1) | h1
        · exact hattrs c (by
            rcases List.mem_cons.mp h1 with h2 | h2
            · rw [h2]; exact List.mem_cons_self _ _
            · exact List.mem_cons_of_mem _ (List.mem_append_left _ h2))
        · exact (show ∀ d ∈ " style=\"".toList, d ≠ '<' ∧ d ≠ '>' by decide) c h1
        · exact hE c h1
        · exact (show ∀ d ∈ "\" /".toList, d ≠ '<' ∧ d ≠ '>' by decide) c h1
  · rw [if_neg hl]
    refine ⟨attrs ++ (" style=\"".toList ++ escapeString S ++ "\"".toList), by simp, ?_, ?_⟩
    · cases attrs with
      | nil => rfl
      | cons w l =>
        rcases hws with h | h
        · exact absurd h (by simp)
        · exact h
    · intro c hc
      simp only [List.mem_append] at hc
      rcases hc with h1 | (h1 | h1) | h1
      · exact hattrs c h1
      · exact (show ∀ d ∈ " style=\"".toList, d ≠ '<' ∧ d ≠ '>' by decide) c h1
      · exact hE c h1
      · exact (show ∀ d ∈ "\"".toList, d ≠ '<' ∧ d ≠ '>' by decide) c h1

/-- One step of the loop of `convertToInlineStyles`, for an entry whose key does not
match the name of the tag `<N Z>`: the tag is kept and the texts around it are rewritten
independently. -/
theorem tagPass_step_foreign (N Z : Str) (e : Str × Str) (a post : Str)
    (hN : ∀ c ∈ N, isDelim c = false)
    (hZ : Z = [] ∨ startsWs Z = true) (hZlt : ∀ c ∈ Z, c ≠ '<')
    (he : e.1 = "pre_code".toList ∨ trimSpace e.2 = [] ∨
      (isTagName e.1 = true ∧ foldMatches e.1 N = false))
    (hcl : tagsClosed a = true) :
    ∃ a1 post1, tagPass (a ++ ('<' :: N ++ Z ++ '>' :: post)) e =
        a1 ++ ('<' :: N ++ Z ++ '>' :: post1) ∧
      tagsClosed a1 = true ∧ TagRw a a1 ∧ TagRw post post1 := by
  unfold tagPass
  by_cases h1 : e.1 = "pre_code".toList
  · rw [if_pos h1]
    exact ⟨a, post, rfl, hcl, TagRw_refl a, TagRw_refl post⟩
  rw [if_neg h1]
  by_cases h2 : trimSpace e.2 = []
  · rw [if_pos h2]
    exact ⟨a, post, rfl, hcl, TagRw_refl a, TagRw_refl post⟩
  rw [if_neg h2]
  rcases he with h | h | ⟨hT, hTN⟩
  · exact absurd h h1
  · exact absurd h h2
  refine ⟨addInlineStyleToTag a e.1 e.2, addInlineStyleToTag post e.1 e.2, ?_,
    TagRw_closed (addInlineStyleToTag_TagRw e.1 e.2 hT a) hcl,
    addInlineStyleToTag_TagRw e.1 e.2 hT a, addInlineStyleToTag_TagRw e.1 e.2 hT post⟩
  simp only [addInlineStyleToTag_eq]
  rw [tagPass_split e.1 _ hT _ a hcl, tagPass_foreign e.1 _ N Z post hT hTN hN hZ hZlt]

/-- The loop of `convertToInlineStyles` over entries none of which matches the name of
the tag `<N Z>`. -/
theorem tagPasses_foreign (N Z : Str) (hN : ∀ c ∈ N, isDelim c = false)
    (hZ : Z = [] ∨ startsWs Z = true) (hZlt : ∀ c ∈ Z, c ≠ '<') :
    ∀ (l : List (Str × Str)),
      (∀ e ∈ l, e.1 = "pre_code".toList ∨ trimSpace e.2 = [] ∨
        (isTagName e.1 = true ∧ foldMatches e.1 N = false)) →
      ∀ a post, tagsClosed a = true →
        ∃ a1 post1, l.foldl tagPass (a ++ ('<' :: N ++ Z ++ '>' :: post)) =
            a1 ++ ('<' :: N ++ Z ++ '>' :: post1) ∧
          tagsClosed a1 = true ∧ Relation.ReflTransGen TagRw a a1 ∧
          Relation.ReflTransGen TagRw post post1 := by
  intro l
  induction l with
  | nil =>
    intro _ a post hcl
    exact ⟨a, post, rfl, hcl, Relation.ReflTransGen.refl, Relation.ReflTransGen.refl⟩
  | cons e l ih =>
    intro hl a post hcl
    obtain ⟨a1, post1, h1, hcl1, ha1, hp1⟩ :=
      tagPass_step_foreign N Z e a post hN hZ hZlt (hl e (List.mem_cons_self _ _)) hcl
    obtain ⟨a2, post2, h2, hcl2, ha2, hp2⟩ :=
      ih (fun x hx => hl x (List.mem_cons_of_mem _ hx)) a1 post1 hcl1
    refine ⟨a2, post2, ?_, hcl2, Relation.ReflTransGen.head ha1 ha2,
      Relation.ReflTransGen.head hp1 hp2⟩
    rw [List.foldl_cons, h1, h2]

/-- One step of the loop of `convertToInlineStyles`, for the entry `(T, S)` and an
opening tag of `T` without `style=` text: the tag gets its fresh style attribute and the
texts around it are rewritten independently. -/
theorem tagPass_step_fresh (T S N attrs a post : Str) (hT : isTagName T = true)
    (hS : trimSpace S ≠ []) (hN : foldMatches T N = true)
    (hws : attrs = [] ∨ startsWs attrs = true) (hgt : ∀ c ∈ attrs, c ≠ '>')
    (hstyle : containsStr "style=".toList (toLower ('<' :: N ++ attrs ++ ['>'])) = false)
    (hcl : tagsClosed a = true) :
    tagPass (a ++ ('<' :: N ++ attrs ++ '>' :: post)) (T, S) =
      addInlineStyleToTag a T S ++ (styledTag N attrs S ++ addInlineStyleToTag post T S) := by
  have h1 : T ≠ "pre_code".toList := by
    intro e; rw [e] at hT; exact absurd hT (by decide)
  unfold tagPass
  rw [if_neg h1, if_neg hS]
  simp only [addInlineStyleToTag_eq]
  obtain ⟨m, hm, htext, hrest⟩ := tagPattern_exec T N attrs post hN hws hgt
  have hNa : ∀ c ∈ N ++ attrs, c ≠ '>' := by
    intro c hc
    rcases List.mem_append.mp hc with h0 | h0
    · exact nodelim_ne_gt c (foldMatches_nodelim T N hT hN c h0)
    · exact hgt c h0
  rw [tagPass_split T _ hT _ a hcl,
    replaceAllFunc_some _ _ _ m hm (by rw [htext]; simp), hrest, htext,
    styleTagText_fresh S N attrs hNa hstyle]

theorem foldMatches_length (T : Str) : ∀ N : Str, foldMatches T N = true →
    N.length = T.length := by
  induction T with
  | nil =>
    intro N h
    cases N with
    | nil => rfl
    | cons n ns => simp [foldMatches] at h
  | cons t ts ih =>
    intro N h
    cases N with
    | nil => simp [foldMatches] at h
    | cons n ns =>
      simp only [foldMatches, Bool.and_eq_true] at h
      simp [ih ns h.2]

theorem nodelim_prefix : ∀ (u N : Str) (d : Char) (t x : Str),
    (∀ c ∈ u, isDelim c = false) → isDelim d = true → N ++ d :: t = u ++ x → u <+: N := by
  intro u
  induction u with
  | nil => intro N _ _ _ _ _ _; exact List.nil_prefix
  | cons c cs ih =>
    intro N d t x hu hd h
    cases N with
    | nil =>
      simp only [List.nil_append, List.cons_append, List.cons.injEq] at h
      have := hu c (List.mem_cons_self _ _)
      rw [← h.1, hd] at this
      exact absurd this (by decide)
    | cons n ns =>
      simp only [List.cons_append, List.cons.injEq] at h
      have := ih ns d t x (fun y hy => hu y (List.mem_cons_of_mem _ hy)) hd h.2
      rw [h.1]
      exact (List.prefix_cons_inj c).mpr this

/-- A tag whose name does not begin with `code` does not begin with `<code`. -/
theorem not_codeOpen (N Z : Str) (hZ : Z = [] ∨ startsWs Z = true)
    (hcode : foldMatches "code".toList (N.take 4) = false) :
    ∀ u1 x b2, foldMatches "<code".toList u1 = true →
      '<' :: (N ++ Z) ++ '>' :: b2 ≠ u1 ++ x := by
  intro u1 x b2 hu1 heq
  cases u1 with
  | nil => exact absurd hu1 (by decide)
  | cons n0 u =>
    have h' : foldMatches ('<' :: "code".toList) (n0 :: u) = true := hu1
    simp only [foldMatches, Bool.and_eq_true] at h'
    have hu : foldMatches "code".toList u = true := by
      show foldMatches ('c' :: 'o' :: 'd' :: 'e' :: []) u = true
      cases u with
      | nil => simp [foldMatches] at h'
      | cons c1 u2 =>
        simp only [foldMatches, Bool.and_eq_true] at h' ⊢
        exact h'.2
    obtain ⟨d, t, e1, hd⟩ := tagTail_head Z b2 hZ
    have h2 : N ++ d :: t = u ++ x := by
      rw [← e1]
      simp only [List.cons_append, List.cons.injEq, List.append_assoc] at heq
      exact heq.2
    have hpre := nodelim_prefix u N d t x
      (foldMatches_nodelim "code".toList u (by decide) hu) hd h2
    have hlen := foldMatches_length _ _ hu
    have := List.prefix_iff_eq_take.mp hpre
    rw [hlen] at this
    rw [show "code".toList.length = 4 from rfl] at this
    rw [← this, hu] at hcode
    exact absurd hcode (by decide)

/-- Text inserted by the pre-code pass never falls inside an opening tag that does not
begin with `<code`, contains no further `<` and is preceded by closed tags only. -/
theorem CodeIns_frame_tag {s out : Str} (h : CodeIns s out) :
    ∀ (a q b : Str), s = a ++ ('<' :: q ++ '>' :: b) →
      (∀ c ∈ q, c ≠ '<' ∧ c ≠ '>') →
      (∀ u1 x b2, foldMatches "<code".toList u1 = true → '<' :: q ++ '>' :: b2 ≠ u1 ++ x) →
      tagsClosed a = true →
      ∃ a1 b1, out = a1 ++ ('<' :: q ++ '>' :: b1) ∧ CodeIns a a1 ∧ CodeIns b b1 := by
  induction h with
  | nil =>
    intro a q b hs _ _ _
    cases a <;> simp at hs
  | copy c h1 ih =>
    intro a q b hs hq hnc hclosed
    cases a with
    | nil =>
      simp only [List.nil_append, List.cons_append, List.cons.injEq] at hs
      obtain ⟨hc, hrest⟩ := hs
      rw [hrest] at h1
      obtain ⟨b1, ho, hb⟩ := CodeIns_copy_run _ hq b _ h1
      refine ⟨[], b1, ?_, CodeIns.nil, hb⟩
      rw [ho, hc]
      simp
    | cons d a1 =>
      simp only [List.cons_append, List.cons.injEq] at hs
      obtain ⟨hc, hrest⟩ := hs
      have hcl : tagsClosed a1 = true := by
        simp only [tagsClosed, Bool.and_eq_true] at hclosed
        exact hclosed.2
      obtain ⟨a2, b1, ho, ha, hb⟩ := ih a1 q b (by rw [hrest]; simp) hq hnc hcl
      refine ⟨c :: a2, b1, by rw [ho]; rfl, ?_, hb⟩
      rw [← hc]
      exact CodeIns.copy c ha
  | @ins u1 u2 x s1 o1 hu1 hu2 h1 ih =>
    intro a q b hs hq hnc hclosed
    obtain ⟨c1, r1, hu, hc1⟩ := codeOpen_shape u1 hu1
    cases a with
    | nil =>
      exfalso
      refine hnc u1 (u2 ++ '>' :: s1) b hu1 ?_
      rw [List.nil_append] at hs
      rw [← hs]
      simp
    | cons d a1 =>
      have hd : d = '<' := by
        rw [hu] at hs
        simp only [List.cons_append, List.cons.injEq] at hs
        exact hs.1.symm
      have hmem : '>' ∈ d :: a1 := by
        simp only [tagsClosed, Bool.and_eq_true, Bool.or_eq_true, bne_iff_ne, ne_eq,
          hd, not_true_eq_false, false_or] at hclosed
        exact List.mem_cons_of_mem _ (List.elem_iff.mp hclosed.1)
      have hu12 : ∀ c ∈ u1 ++ u2, c ≠ '>' := by
        intro c hc
        rcases List.mem_append.mp hc with h0 | h0
        · exact foldMatches_no_gt _ _ hu1 (by decide) c h0
        · exact hu2 c h0
      obtain ⟨a2, ha, hrest⟩ := first_gt_split (u1 ++ u2) (d :: a1) _ _ hu12 hs hmem
      have hcl : tagsClosed a2 = true := by
        rw [ha] at hclosed
        have := tagsClosed_append_right (u1 ++ u2) ('>' :: a2) hclosed
        simp only [tagsClosed, Bool.and_eq_true] at this
        exact this.2
      obtain ⟨a3, b1, ho, ha3, hb⟩ := ih a2 q b hrest hq hnc hcl
      refine ⟨u1 ++ u2 ++ x ++ '>' :: a3, b1, ?_, ?_, hb⟩
      · rw [ho]; simp
      · rw [ha]
        exact CodeIns.ins u1 u2 x hu1 hu2 ha3

/-! ## The web handlers -/

theorem sniff_code_eq (b : Bytes) :
    (if 4 < b.length ∧ b.getD 0 0 = 0xFF ∧ b.getD 1 0 = 0xD8 then "image/jpeg".toList
     else if 8 < b.length ∧ b.take 8 = pngSignature then "image/png".toList
     else if 4 < b.length ∧ b.take 4 = gif8 then "image/gif".toList
     else "image/png".toList)
    = if 4 < b.length then sniffSpec b else "image/png".toList := by
  by_cases h4 : 4 < b.length
  · rw [if_pos h4]
    match b, h4 with
    | b0 :: b1 :: b2 :: b3 :: b4 :: r, _ =>
      by_cases hj : b0 = 0xFF ∧ b1 = 0xD8
      · simp [sniffSpec, List.isPrefixOf, hj.1, hj.2]
      · have hj2 : ¬ (4 < (b0 :: b1 :: b2 :: b3 :: b4 :: r).length ∧
            (b0 :: b1 :: b2 :: b3 :: b4 :: r).getD 0 0 = 0xFF ∧
            (b0 :: b1 :: b2 :: b3 :: b4 :: r).getD 1 0 = 0xD8) := by
          intro h; exact hj ⟨h.2.1, h.2.2⟩
        have hj3 : List.isPrefixOf [0xFF, 0xD8] (b0 :: b1 :: b2 :: b3 :: b4 :: r) = false := by
          simp only [List.isPrefixOf, Bool.and_true, Bool.and_eq_false_imp, beq_iff_eq]
          intro h0
          simp only [beq_eq_false_iff_ne, ne_eq]
          intro h1
          exact hj ⟨h0.symm, h1.symm⟩
        rw [if_neg hj2]
        unfold sniffSpec
        rw [hj3]
        simp only [Bool.false_eq_true, if_false]
        by_cases hg : gif8.isPrefixOf (b0 :: b1 :: b2 :: b3 :: b4 :: r) = true
        · have hg2 : (b0 :: b1 :: b2 :: b3 :: b4 :: r).take 4 = gif8 := by
            simp only [gif8, List.isPrefixOf, Bool.and_true, Bool.and_eq_true, beq_iff_eq] at hg
            simp [gif8, hg.1, hg.2.1, hg.2.2.1, hg.2.2.2]
          have hp : pngSignature.isPrefixOf (b0 :: b1 :: b2 :: b3 :: b4 :: r) = false := by
            simp only [gif8, List.isPrefixOf, Bool.and_true, Bool.and_eq_true, beq_iff_eq] at hg
            simp [pngSignature, List.isPrefixOf, ← hg.1]
          have hp2 : ¬ (8 < (b0 :: b1 :: b2 :: b3 :: b4 :: r).length ∧
              (b0 :: b1 :: b2 :: b3 :: b4 :: r).take 8 = pngSignature) := by
            rintro ⟨-, h⟩
            simp only [gif8, List.isPrefixOf, Bool.and_true, Bool.and_eq_true, beq_iff_eq] at hg
            simp [pngSignature, ← hg.1] at h
          rw [if_neg hp2, hp, hg, if_pos ⟨by simp, hg2⟩]
          simp
        · have hg2 : ¬ (4 < (b0 :: b1 :: b2 :: b3 :: b4 :: r).length ∧
              (b0 :: b1 :: b2 :: b3 :: b4 :: r).take 4 = gif8) := by
            rintro ⟨-, h⟩
            apply hg
            simp only [List.take_succ_cons, List.take_zero, gif8, List.cons.injEq,
              and_true] at h
            simp [gif8, List.isPrefixOf, h.1, h.2.1, h.2.2.1, h.2.2.2]
          simp only [hg, Bool.false_eq_true, if_false, if_neg hg2]
          split <;> split <;> rfl
  · have h8 : ¬ 8 < b.length := by omega
    simp [h4, h8]

theorem lookup_SetImageURL (w : WeChatHTMLConverter) (token imageURL : Str) :
    (SetImageURL w token imageURL).imageURLs.lookup token = some imageURL := by
  simp [SetImageURL, List.lookup]

theorem bundleLoop_ok (zip : ZipLib) (download : Str → Option (Str × Bytes))
    (localName : Str → Str) (bytes : Str → Bytes)
    (hcreate : ∀ n, zip.createOK n = true) (hwrite : ∀ p, zip.writeOK p = true) :
    ∀ (toks : List Str) (markdown : Str) (entries : List (Str × Payload)),
      (∀ t ∈ toks, download t = some (localName t, bytes t)) →
      bundleLoop zip download toks markdown entries =
        .ok (toks.foldl (fun md t => replaceFirst t (localName t) md) markdown,
          entries ++ toks.map (fun t => (localName t, Payload.raw (bytes t)))) := by
  intro toks
  induction toks with
  | nil => intro markdown entries _; simp [bundleLoop]
  | cons t rest ih =>
    intro markdown entries h
    have ht := h t (List.mem_cons_self _ _)
    simp only [bundleLoop, ht, hcreate, hwrite, Bool.true_eq_false, if_false]
    rw [ih _ _ (fun u hu => h u (List.mem_cons_of_mem _ hu))]
    simp

/-! ## Theorems -/

/-- C1: merging into an existing `style` attribute loses the `style="` prefix when the
theme declaration begins with a letter.  For `<p style="color: red;">` and the default
declaration of `p`, `addInlineStyleToTag` returns `<p : 12px 0; ... color: red;">`:
the template `$1margin: ...` is read by the template expansion as a reference to a
group named `1margin`, which does not exist, so the text of group 1 is dropped together
with the first word of the declaration.  The merged tag the claim describes,
`<p style="margin: 12px 0; ... color: red;">`, is not produced. -/
theorem addInlineStyleToTag_merge_drops_style_prefix :
    defaultTagStyles.lookup "p".toList = some "margin: 12px 0; text-align: justify; word-wrap: break-word; word-break: break-all; line-height: 1.8; font-size: 17px; color: #333333;".toList
    ∧ addInlineStyleToTag "<p style=\"color: red;\">x</p>".toList "p".toList
        "margin: 12px 0; text-align: justify; word-wrap: break-word; word-break: break-all; line-height: 1.8; font-size: 17px; color: #333333;".toList
      = "<p : 12px 0; text-align: justify; word-wrap: break-word; word-break: break-all; line-height: 1.8; font-size: 17px; color: #333333; color: red;\">x</p>".toList
    ∧ addInlineStyleToTag "<p style=\"color: red;\">x</p>".toList "p".toList
        "margin: 12px 0; text-align: justify; word-wrap: break-word; word-break: break-all; line-height: 1.8; font-size: 17px; color: #333333;".toList
      ≠ "<p style=\"margin: 12px 0; text-align: justify; word-wrap: break-word; word-break: break-all; line-height: 1.8; font-size: 17px; color: #333333; color: red;\">x</p>".toList := by
  set_option maxRecDepth 100000 in decide

/-- C2 (as stated, refuted): with the default theme, a self-closing tag does not come
out with ` style="E"` inserted immediately before `/>`.  For `<hr />` the code replaces
`/>` by ` style="E" />`, so the output is `<hr  style="E" />`, with a space between the
attribute and the terminator, and the tag the claim describes, `<hr  style="E"/>`, does
not occur in the output.  For `<hr/>` the tag pattern `<hr(\s[^>]*)?>` does not match
and the tag is returned without any style. -/
theorem convertToInlineStyles_selfClosing_spacing :
    convertToInlineStyles NewWeChatHTMLConverter "<hr />".toList
      = "<hr  style=\"border: none; border-top: 1px solid #eaeaea; margin: 20px 0;\" />".toList
    ∧ containsStr
        "<hr  style=\"border: none; border-top: 1px solid #eaeaea; margin: 20px 0;\"/>".toList
        (convertToInlineStyles NewWeChatHTMLConverter "<hr />".toList) = false
    ∧ convertToInlineStyles NewWeChatHTMLConverter "<hr/>".toList = "<hr/>".toList := by
  set_option maxRecDepth 100000 in decide

/-- C2 (amended): fresh style injection by `convertToInlineStyles`, for every occurrence
of an opening tag.  Let the theme hold the entry `(T, S)` with `T` a tag name (ASCII
letters, digits, hyphens) and `S` not blank, and let every other entry be skipped by the
loop (key `pre_code` or blank declaration) or have a tag name as key that does not match
the name `N` of the tag.  Let `<N attrs>` be an opening tag of `T` anywhere in the input:
`N` is `T` in any letter case, `attrs` is empty or starts with white space and contains
no `<` or `>`, the tag contains no `style=` text, and the text `a` before it leaves no
tag open; when the theme has a pre-code declaration, `N` does not begin with `code`.
Then the output is `a1 ++ tag ++ post1`, where `tag` is the input tag with ` style="E">`
in place of its final `>` when it does not end in `/>`, and with ` style="E" />` in
place of its final `/>` when it does (`E` the HTML-escaped `S`, every other character of
the tag unchanged), and `a1` and `post1` come from the texts before and after the tag by
rewriting tags only. -/
theorem convertToInlineStyles_fresh (w : WeChatHTMLConverter) (l1 l2 : List (Str × Str))
    (T S N attrs a post : Str)
    (hstyles : w.styles = l1 ++ (T, S) :: l2)
    (hT : isTagName T = true) (hS : trimSpace S ≠ [])
    (hothers : ∀ e ∈ l1 ++ l2, e.1 = "pre_code".toList ∨ trimSpace e.2 = [] ∨
      (isTagName e.1 = true ∧ foldMatches e.1 N = false))
    (hN : foldMatches T N = true)
    (hcode : trimSpace w.preCode = [] ∨ foldMatches "code".toList (N.take 4) = false)
    (hws : attrs = [] ∨ startsWs attrs = true)
    (hattrs : ∀ c ∈ attrs, c ≠ '<' ∧ c ≠ '>')
    (hstyle : containsStr "style=".toList (toLower ('<' :: N ++ attrs ++ ['>'])) = false)
    (hclosed : tagsClosed a = true) :
    ∃ a1 post1,
      convertToInlineStyles w (a ++ ('<' :: N ++ attrs ++ '>' :: post)) =
        a1 ++ (styledTag N attrs S ++ post1) ∧
      Relation.ReflTransGen TagRw a a1 ∧ Relation.ReflTransGen TagRw post post1 := by
  have hNd := foldMatches_nodelim T N hT hN
  have hgt : ∀ c ∈ attrs, c ≠ '>' := fun c hc => (hattrs c hc).2
  have hlt : ∀ c ∈ attrs, c ≠ '<' := fun c hc => (hattrs c hc).1
  obtain ⟨a1, p1, e1, hcl1, ha1, hp1⟩ := tagPasses_foreign N attrs hNd hws hlt l1
    (fun e he => hothers e (List.mem_append_left _ he)) a post hclosed
  have e2 := tagPass_step_fresh T S N attrs a1 p1 hT hS hN hws hgt hstyle hcl1
  have ha2 := addInlineStyleToTag_TagRw T S hT a1
  have hp2 := addInlineStyleToTag_TagRw T S hT p1
  have hcl2 := TagRw_closed ha2 hcl1
  obtain ⟨Z, hZ, hZws, hZa⟩ := styledTag_shape N attrs S hNd hws hattrs
  obtain ⟨a3, p3, e3, hcl3, ha3, hp3⟩ := tagPasses_foreign N Z hNd (Or.inr hZws)
    (fun c hc => (hZa c hc).1) l2
    (fun e he => hothers e (List.mem_append_right _ he))
    (addInlineStyleToTag a1 T S) (addInlineStyleToTag p1 T S) hcl2
  have hloop : w.styles.foldl tagPass (a ++ ('<' :: N ++ attrs ++ '>' :: post)) =
      a3 ++ ('<' :: N ++ Z ++ '>' :: p3) := by
    rw [hstyles, List.foldl_append, List.foldl_cons, e1, e2, ← e3, hZ]
    simp
  have hA : Relation.ReflTransGen TagRw a a3 :=
    (ha1.tail ha2).trans ha3
  have hP : Relation.ReflTransGen TagRw post p3 :=
    (hp1.tail hp2).trans hp3
  rw [convertToInlineStyles_eq, hloop]
  by_cases hpc : trimSpace w.preCode = []
  · rw [if_neg (by rw [hpc]; simp)]
    refine ⟨a3, p3, ?_, hA, hP⟩
    rw [hZ]; simp
  · rw [if_pos hpc]
    have hc4 : foldMatches "code".toList (N.take 4) = false := by
      rcases hcode with h | h
      · exact absurd h hpc
      · exact h
    have hq : ∀ c ∈ N ++ Z, c ≠ '<' ∧ c ≠ '>' := by
      intro c hc
      rcases List.mem_append.mp hc with h0 | h0
      · exact ⟨nodelim_ne_lt c (hNd c h0), nodelim_ne_gt c (hNd c h0)⟩
      · exact hZa c h0
    have hins := addInlineStyleToPreCode_ins w.preCode (a3 ++ ('<' :: N ++ Z ++ '>' :: p3))
    obtain ⟨a4, p4, e4, ha4, hp4⟩ := CodeIns_frame_tag hins a3 (N ++ Z) p3 (by simp) hq
      (not_codeOpen N Z (Or.inr hZws) hc4) hcl3
    refine ⟨a4, p4, ?_, hA.tail (CodeIns_TagRw ha4), hP.tail (CodeIns_TagRw hp4)⟩
    rw [e4, hZ]; simp

/-- C2 (amended), with the default theme on
`<p style="a">x</p><P align="left">y</P><hr />`: at the second paragraph, which gets
the declaration of `p` before its `>`, and at `<hr />`, which gets the declaration of
`hr` and a space before its `/>`. -/
theorem convertToInlineStyles_fresh_witness :
    (∃ a1 post1,
      convertToInlineStyles NewWeChatHTMLConverter ("<p style=\"a\">x</p>".toList ++
          ('<' :: "P".toList ++ " align=\"left\"".toList ++ '>' :: "y</P><hr />".toList)) =
        a1 ++ ("<P align=\"left\" style=\"margin: 12px 0; text-align: justify; word-wrap: break-word; word-break: break-all; line-height: 1.8; font-size: 17px; color: #333333;\">".toList
          ++ post1) ∧
      Relation.ReflTransGen TagRw "<p style=\"a\">x</p>".toList a1 ∧
      Relation.ReflTransGen TagRw "y</P><hr />".toList post1) ∧
    (∃ a1 post1,
      convertToInlineStyles NewWeChatHTMLConverter
          ("<p style=\"a\">x</p><P align=\"left\">y</P>".toList ++
            ('<' :: "hr".toList ++ " /".toList ++ '>' :: [])) =
        a1 ++ ("<hr  style=\"border: none; border-top: 1px solid #eaeaea; margin: 20px 0;\" />".toList
          ++ post1) ∧
      Relation.ReflTransGen TagRw "<p style=\"a\">x</p><P align=\"left\">y</P>".toList a1 ∧
      Relation.ReflTransGen TagRw [] post1) := by
  set_option maxRecDepth 100000 in
  exact ⟨convertToInlineStyles_fresh NewWeChatHTMLConverter
      (defaultTagStyles.takeWhile (fun e => e.1 ≠ "p".toList))
      ((defaultTagStyles.dropWhile (fun e => e.1 ≠ "p".toList)).tail)
      "p".toList
      "margin: 12px 0; text-align: justify; word-wrap: break-word; word-break: break-all; line-height: 1.8; font-size: 17px; color: #333333;".toList
      "P".toList " align=\"left\"".toList "<p style=\"a\">x</p>".toList
      "y</P><hr />".toList
      (by decide) (by decide) (by decide) (by decide) (by decide) (by decide) (by decide)
      (by decide) (by decide) (by decide),
    convertToInlineStyles_fresh NewWeChatHTMLConverter
      (defaultTagStyles.takeWhile (fun e => e.1 ≠ "hr".toList))
      ((defaultTagStyles.dropWhile (fun e => e.1 ≠ "hr".toList)).tail)
      "hr".toList "border: none; border-top: 1px solid #eaeaea; margin: 20px 0;".toList
      "hr".toList " /".toList "<p style=\"a\">x</p><P align=\"left\">y</P>".toList []
      (by decide) (by decide) (by decide) (by decide) (by decide) (by decide) (by decide)
      (by decide) (by decide) (by decide)⟩

/-- C3: the output of `removeStyleLinkScriptTags` can contain a script element, against
the claim and against the comment of the function, which says that all style, link and
script tags are removed with their content.  On
`<scr<script></script>ipt>alert(1)</script>` the script pass removes the inner
`<script></script>` and does not look again at the text it has joined: the output is
`<script>alert(1)</script>`, in which the script pattern matches. -/
theorem removeStyleLinkScriptTags_output_matches :
    removeStyleLinkScriptTags "<scr<script></script>ipt>alert(1)</script>".toList
      = "<script>alert(1)</script>".toList
    ∧ scriptPattern.matchesIn
        (removeStyleLinkScriptTags "<scr<script></script>ipt>alert(1)</script>".toList) = true := by
  set_option maxRecDepth 100000 in decide

/-- What one application of `removeStyleLinkScriptTags` does guarantee: it only deletes
characters (its output is a subsequence of its input), and it returns its input
unchanged exactly when none of the three removal patterns matches anywhere in the
input. -/
theorem removeStyleLinkScriptTags_fixed_iff (s : Str) :
    (removeStyleLinkScriptTags s).Sublist s ∧
    (removeStyleLinkScriptTags s = s ↔
      (stylePattern.matchesIn s = false ∧ linkPattern.matchesIn s = false ∧
        scriptPattern.matchesIn s = false)) :=
  three_deleting_passes stylePattern linkPattern scriptPattern rfl rfl rfl s

/-- C4: the output of `removeClassAndID` can contain a quoted `class` attribute, against
the claim and against the comment of the function, which says that all class and id
attributes are removed.  On `<p cla id="x"ss="y">` the class pass finds nothing, the id
pass removes ` id="x"` and the text it has joined is not looked at again: the output is
`<p class="y">`, in which the class pattern matches. -/
theorem removeClassAndID_output_matches :
    removeClassAndID "<p cla id=\"x\"ss=\"y\">".toList = "<p class=\"y\">".toList
    ∧ classPattern.matchesIn (removeClassAndID "<p cla id=\"x\"ss=\"y\">".toList) = true := by
  set_option maxRecDepth 100000 in decide

/-- What one application of `removeClassAndID` does guarantee: it only deletes characters
(its output is a subsequence of its input), and it returns its input unchanged exactly
when none of the three attribute patterns matches anywhere in the input. -/
theorem removeClassAndID_fixed_iff (s : Str) :
    (removeClassAndID s).Sublist s ∧
    (removeClassAndID s = s ↔
      (classPattern.matchesIn s = false ∧ idPattern.matchesIn s = false ∧
        dataPattern.matchesIn s = false)) :=
  three_deleting_passes classPattern idPattern dataPattern rfl rfl rfl s

/-- C5: image substitution replaces the first occurrence of the `src` text anywhere in
the tag, not the `src` value.  With the token `logo` registered, the tag
`<img alt="logo" src="logo">` comes out as `<img alt="https://cdn.example/logo.png"
src="logo">`: the `alt` attribute is changed and the `src` value is still the token.
Without a registry entry the same happens with the normalised reference. -/
theorem processImages_replaces_first_occurrence :
    processImages ⟨[("logo".toList, "https://cdn.example/logo.png".toList)], [], []⟩
        "<img alt=\"logo\" src=\"logo\">".toList
      = "<img alt=\"https://cdn.example/logo.png\" src=\"logo\">".toList
    ∧ processImages ⟨[], [], []⟩ "<img alt=\"http://a/b.png\" src=\"http://a/b.png\">".toList
      = "<img alt=\"https://a/b.png\" src=\"http://a/b.png\">".toList := by
  set_option maxRecDepth 100000 in decide

/-- C6 (as stated, refuted): a reference with surrounding white space is neither
returned unchanged nor treated by its literal prefix; `"a.png "` comes back trimmed. -/
theorem normalizeImageURL_not_spec :
    normalizeImageURL "a.png ".toList ≠ normalizeSpec "a.png ".toList := by
  decide

/-- C6 (amended): `normalizeImageURL` is the reference definition applied to the
white-space-trimmed input, for every input string. -/
theorem normalizeImageURL_eq_spec_trim (x : Str) :
    normalizeImageURL x = normalizeSpec (trimSpace x) := by
  unfold normalizeImageURL normalizeSpec
  generalize trimSpace x = y
  by_cases h1 : hasPrefix y "data:".toList = true
  · rw [if_pos h1, if_pos (Or.inl h1)]
  by_cases h2 : hasPrefix y "https://".toList = true
  · rw [if_neg h1, if_pos h2, if_pos (Or.inr h2)]
  rw [if_neg h1, if_neg h2, if_neg (not_or.mpr ⟨h1, h2⟩)]
  by_cases h3 : hasPrefix y "http://".toList = true
  · rw [if_pos h3, if_pos h3]
    exact replaceFirst_of_prefix _ _ _ h3 (by decide)
  rw [if_neg h3, if_neg h3]
  by_cases h4 : hasPrefix y "//".toList = true
  · rw [if_pos h4, if_pos h4]
  · rw [if_neg h4, if_neg h4]
    split <;> rfl

/-- C7: whitespace cleanup is idempotent: for every string `s`,
`cleanupWhitespace (cleanupWhitespace s) = cleanupWhitespace s`. -/
theorem cleanupWhitespace_idempotent (s : Str) :
    cleanupWhitespace (cleanupWhitespace s) = cleanupWhitespace s := by
  have hg : '$' ∉ "><".toList := by decide
  have hb : '$' ∉ "\n\n".toList := by decide
  have hmonoG : ∀ t b, (tagGapPattern.exec t).isSome = true →
      (tagGapPattern.exec (t ++ b)).isSome = true := by
    intro t b h
    rw [tagGap_exec_isSome] at h ⊢
    exact gapAtHead_append t b h
  have hmonoB : ∀ t b, (blankLinesPattern.exec t).isSome = true →
      (blankLinesPattern.exec (t ++ b)).isSome = true := by
    intro t b h
    rw [blankLines_exec_isSome] at h ⊢
    exact runAtHead_append t b h
  have hG : tagGapPattern.matchesIn (cleanupWhitespace s) = false := by
    unfold cleanupWhitespace
    simp only [replaceAllString_const _ _ hg, replaceAllString_const _ _ hb]
    exact trimSpace_keeps_noMatch _ hmonoG _ (blankPass_keeps_noGap _ (gapPass_noGap s))
  have hB : blankLinesPattern.matchesIn (cleanupWhitespace s) = false := by
    unfold cleanupWhitespace
    simp only [replaceAllString_const _ _ hg, replaceAllString_const _ _ hb]
    exact trimSpace_keeps_noMatch _ hmonoB _ (blankPass_noRun _)
  have hT : trimSpace (cleanupWhitespace s) = cleanupWhitespace s := by
    unfold cleanupWhitespace
    exact trimSpace_idem _
  generalize cleanupWhitespace s = x at hG hB hT
  unfold cleanupWhitespace
  simp only [replaceAllString_const _ _ hg, replaceAllString_const _ _ hb]
  rw [replaceAllFunc_of_not_matchesIn _ _ x hG, replaceAllFunc_of_not_matchesIn _ _ x hB, hT]

/-- C8: after a successful `LoadThemeFromFile` of a configuration with tags `T` and
pre-code string `P`, the tag styles are exactly `T` when `T` is non-empty and unchanged
when `T` is empty or absent; the pre-code style is the trimmed `P` when that is
non-empty and unchanged otherwise; the image map is untouched. -/
theorem LoadThemeFromFile_replaces {ε : Type} (readFile : Str → Except ε Str)
    (unmarshal : Str → Except ε ThemeConfig) (w : WeChatHTMLConverter) (path bs : Str)
    (cfg : ThemeConfig) (hpath : path ≠ []) (hread : readFile path = .ok bs)
    (hparse : unmarshal bs = .ok cfg) :
    ∃ w1, LoadThemeFromFile readFile unmarshal w path = .ok w1
      ∧ w1.styles = (match cfg.Tags with
          | some T => if T ≠ [] then T else w.styles
          | none => w.styles)
      ∧ w1.preCode = (if trimSpace cfg.PreCode ≠ [] then trimSpace cfg.PreCode else w.preCode)
      ∧ w1.imageURLs = w.imageURLs := by
  refine ⟨applyTheme w cfg, ?_, ?_, ?_, ?_⟩
  · simp [LoadThemeFromFile, hpath, hread, hparse]
  · unfold applyTheme
    cases hT : cfg.Tags with
    | none => by_cases hp : trimSpace cfg.PreCode = [] <;> simp [hp]
    | some T =>
      cases T with
      | nil => by_cases hp : trimSpace cfg.PreCode = [] <;> simp [hp]
      | cons a l => by_cases hp : trimSpace cfg.PreCode = [] <;> simp [hp]
  · unfold applyTheme
    cases hT : cfg.Tags with
    | none => by_cases hp : trimSpace cfg.PreCode = [] <;> simp [hp]
    | some T =>
      cases T with
      | nil => by_cases hp : trimSpace cfg.PreCode = [] <;> simp [hp]
      | cons a l => by_cases hp : trimSpace cfg.PreCode = [] <;> simp [hp]
  · unfold applyTheme
    cases hT : cfg.Tags with
    | none => by_cases hp : trimSpace cfg.PreCode = [] <;> simp [hp]
    | some T =>
      cases T with
      | nil => by_cases hp : trimSpace cfg.PreCode = [] <;> simp [hp]
      | cons a l => by_cases hp : trimSpace cfg.PreCode = [] <;> simp [hp]

/-- C8, at the configuration `tags = {p: "color: red;"}`, `pre_code = ""` loaded into
the default converter: the tag styles are exactly that one entry and the pre-code style
is the built-in default. -/
theorem LoadThemeFromFile_replaces_witness :
    ∃ w1, LoadThemeFromFile (fun _ => (Except.ok [] : Except Unit Str))
        (fun _ => Except.ok ⟨some [("p".toList, "color: red;".toList)], []⟩)
        NewWeChatHTMLConverter "theme.wechat.json".toList = .ok w1
      ∧ w1.styles = [("p".toList, "color: red;".toList)]
      ∧ w1.preCode = defaultPreCodeStyle
      ∧ w1.imageURLs = [] :=
  LoadThemeFromFile_replaces (fun _ => (Except.ok [] : Except Unit Str))
    (fun _ => Except.ok ⟨some [("p".toList, "color: red;".toList)], []⟩)
    NewWeChatHTMLConverter "theme.wechat.json".toList [] ⟨some [("p".toList, "color: red;".toList)], []⟩
    (by decide) rfl rfl

/-- C9 (as stated, refuted): a `<pre ...>` opening tag whose text contains `<code` is
rewritten.  On `<pre title="<code"><code>x</code></pre>` the inner rewrite of the matched
region takes `<code">` inside the `pre` tag for a `code` opening tag, and the output is
`<pre title="<code" style="b"><code style="b">x</code></pre>`: the input's
`<pre title="<code">` no longer occurs. -/
theorem addInlineStyleToPreCode_alters_pre :
    addInlineStyleToPreCode "<pre title=\"<code\"><code>x</code></pre>".toList "b".toList
      = "<pre title=\"<code\" style=\"b\"><code style=\"b\">x</code></pre>".toList
    ∧ containsStr "<pre title=\"<code\">".toList
        (addInlineStyleToPreCode "<pre title=\"<code\"><code>x</code></pre>".toList
          "b".toList) = false := by
  set_option maxRecDepth 100000 in decide

/-- C9 (amended): for every pre-code style and every input `a ++ <pre attrs> ++ b` in
which the `pre` opening tag (`<pre` in any letter case) has neither `<` nor `>` among
its attributes and every `<` of the text `a` before it is followed by a `>` within `a`,
the output of `addInlineStyleToPreCode` is `a1 ++ <pre attrs> ++ b1` with the same
opening tag, character for character, where `a1` and `b1` are `a` and `b` with text
inserted only before the closing `>` of `<code...>` opening tags. -/
theorem addInlineStyleToPreCode_keeps_pre (a P attrs b style : Str)
    (hP : foldMatches "<pre".toList P = true)
    (hattrs : ∀ c ∈ attrs, c ≠ '<' ∧ c ≠ '>')
    (hclosed : tagsClosed a = true) :
    ∃ a1 b1, addInlineStyleToPreCode (a ++ (P ++ attrs ++ '>' :: b)) style
        = a1 ++ (P ++ attrs ++ '>' :: b1) ∧ CodeIns a a1 ∧ CodeIns b b1 :=
  CodeIns_frame (addInlineStyleToPreCode_ins style _) a P attrs b rfl hP hattrs hclosed

/-- C9 (amended), at `<p>x</p><PRE style="s"><code>y</code></pre>` with the pre-code
style `c`. -/
theorem addInlineStyleToPreCode_keeps_pre_witness :
    ∃ a1 b1, addInlineStyleToPreCode ("<p>x</p>".toList ++
        ("<PRE".toList ++ " style=\"s\"".toList ++ '>' :: "<code>y</code></pre>".toList))
        "c".toList
        = a1 ++ ("<PRE".toList ++ " style=\"s\"".toList ++ '>' :: b1)
      ∧ CodeIns "<p>x</p>".toList a1 ∧ CodeIns "<code>y</code></pre>".toList b1 :=
  addInlineStyleToPreCode_keeps_pre "<p>x</p>".toList "<PRE".toList " style=\"s\"".toList
    "<code>y</code></pre>".toList "c".toList (by decide) (by decide) (by decide)

/-- C10: `ValidateHTTPSURL` succeeds on inputs without a host.  Whatever `url.Parse`
does, the inputs `https://`, `http://` and `//` are returned by the prefix branches
before any parsing or host check, each as the string `https://` with nothing after the
scheme; the claim requires an error for them. -/
theorem ValidateHTTPSURL_accepts_empty_host (parse : Str → Option URL)
    (urlString : URL → Str) :
    ValidateHTTPSURL parse urlString "https://".toList = .ok "https://".toList
    ∧ ValidateHTTPSURL parse urlString "http://".toList = .ok "https://".toList
    ∧ ValidateHTTPSURL parse urlString "//".toList = .ok "https://".toList :=
  ⟨rfl, rfl, rfl⟩

/-- C11 (as stated, refuted): content sniffing does not follow the leading bytes for
short payloads.  For a local name without extension and the three bytes `FF D8 FF`,
which begin with `FF D8`, the detected type is `image/png`, not `image/jpeg`; for the
four bytes `GIF8` it is `image/png`, not `image/gif`: the code tests the leading bytes
only when the payload is longer than four bytes. -/
theorem detectMIME_short_payload :
    extMIME (toLowerU (filepathExt "static/img".toList)) = none
    ∧ detectMIME "static/img".toList [0xFF, 0xD8, 0xFF] = "image/png".toList
    ∧ sniffSpec [0xFF, 0xD8, 0xFF] = "image/jpeg".toList
    ∧ detectMIME "static/img".toList gif8 = "image/png".toList
    ∧ sniffSpec gif8 = "image/gif".toList := by
  decide

/-- C11 (amended): for every local name and every byte sequence `b`, the detected MIME
type is the type of the lower-cased extension when that is a recognised one, whatever
the content; otherwise it is, for `b` longer than four bytes, `image/jpeg` if `b` begins
with `FF D8`, `image/png` if `b` begins with the PNG signature, `image/gif` if `b` begins
with `GIF8` and `image/png` otherwise, and for `b` of at most four bytes `image/png`.
The value registered for the token by `convertHandler`, and the data URI of the JSON
branch of `downloadHandler`, is `"data:" ++ mime ++ ";base64," ++ base64 b`, whatever the
size of `b`. -/
theorem detectMIME_dataURI (base64 : Bytes → Str) (w : WeChatHTMLConverter)
    (imgToken localLink : Str) (b : Bytes) :
    detectMIME localLink b =
      (match extMIME (toLowerU (filepathExt localLink)) with
        | some m => m
        | none => if 4 < b.length then sniffSpec b else "image/png".toList)
    ∧ (convertHandlerImage base64 w imgToken localLink b).imageURLs.lookup imgToken
        = some ("data:".toList ++ detectMIME localLink b ++ ";base64,".toList ++ base64 b)
    ∧ downloadHandlerDataURI base64 localLink b
        = "data:".toList ++ detectMIME localLink b ++ ";base64,".toList ++ base64 b := by
  refine ⟨?_, ?_, rfl⟩
  · unfold detectMIME extMIME
    dsimp only
    generalize toLowerU (filepathExt localLink) = ext
    by_cases h1 : ext = ".jpg".toList ∨ ext = ".jpeg".toList
    · rw [if_pos h1, if_pos h1]
    rw [if_neg h1, if_neg h1]
    by_cases h2 : ext = ".png".toList
    · rw [if_pos h2, if_pos h2]
    rw [if_neg h2, if_neg h2]
    by_cases h3 : ext = ".gif".toList
    · rw [if_pos h3, if_pos h3]
    rw [if_neg h3, if_neg h3]
    by_cases h4 : ext = ".webp".toList
    · rw [if_pos h4, if_pos h4]
    rw [if_neg h4, if_neg h4]
    by_cases h5 : ext = ".svg".toList
    · rw [if_pos h5, if_pos h5]
    rw [if_neg h5, if_neg h5]
    by_cases h6 : ext = ".bmp".toList
    · rw [if_pos h6, if_pos h6]
    rw [if_neg h6, if_neg h6]
    exact sniff_code_eq b
  · unfold convertHandlerImage
    dsimp only
    split <;> exact lookup_SetImageURL _ _ _

/-- C12: with every download succeeding (local name `localName t`, bytes `bytes t`) and
the zip calls succeeding, the file branch of `downloadHandler` returns, for an empty
token list, the bare file `D.md` holding the formatted Markdown, and otherwise the
archive `D.zip` whose entries are one entry per token, in token order, at its local name
with its raw bytes, followed by the single entry `D.md` holding the formatted Markdown in
which, token by token, the first occurrence of the token is rewritten to the local name;
that is `n + 1` entries for `n` tokens. -/
theorem downloadBundle_shape (zip : ZipLib) (download : Str → Option (Str × Bytes))
    (formatStr : Str → Str) (docToken markdown : Str) (imgTokens : List Str)
    (localName : Str → Str) (bytes : Str → Bytes)
    (hdl : ∀ t ∈ imgTokens, download t = some (localName t, bytes t))
    (hcreate : ∀ n, zip.createOK n = true) (hwrite : ∀ p, zip.writeOK p = true)
    (hclose : zip.closeOK = true) :
    downloadBundle zip download formatStr docToken markdown imgTokens =
      (if imgTokens = [] then Response.file (docToken ++ ".md".toList) (formatStr markdown)
       else Response.archive (docToken ++ ".zip".toList)
        (imgTokens.map (fun t => (localName t, Payload.raw (bytes t))) ++
          [(docToken ++ ".md".toList, Payload.text (formatStr
            (imgTokens.foldl (fun md t => replaceFirst t (localName t) md) markdown)))]))
    ∧ (imgTokens.map (fun t => (localName t, Payload.raw (bytes t))) ++
          [(docToken ++ ".md".toList, Payload.text (formatStr
            (imgTokens.foldl (fun md t => replaceFirst t (localName t) md) markdown)))]).length
        = imgTokens.length + 1 := by
  refine ⟨?_, by simp⟩
  unfold downloadBundle
  rw [bundleLoop_ok zip download localName bytes hcreate hwrite imgTokens markdown [] hdl]
  cases imgTokens with
  | nil => simp
  | cons t rest => simp [hcreate, hwrite, hclose]

/-- C12, for the document `D`, the Markdown `![](t1) ![](t2)` and the two tokens `t1`,
`t2`: the archive `D.zip` with exactly three entries, the two images and `D.md`; and for
no tokens the bare file `D.md`. -/
theorem downloadBundle_shape_witness :
    downloadBundle ⟨fun _ => true, fun _ => true, true⟩
        (fun t => some ("static/".toList ++ t ++ ".png".toList, [137, 80]))
        (fun md => md) "D".toList "![](t1) ![](t2)".toList ["t1".toList, "t2".toList]
      = Response.archive "D.zip".toList
          [("static/t1.png".toList, Payload.raw [137, 80]),
           ("static/t2.png".toList, Payload.raw [137, 80]),
           ("D.md".toList, Payload.text "![](static/t1.png) ![](static/t2.png)".toList)]
    ∧ downloadBundle ⟨fun _ => true, fun _ => true, true⟩
        (fun t => some ("static/".toList ++ t ++ ".png".toList, [137, 80]))
        (fun md => md) "D".toList "# title".toList []
      = Response.file "D.md".toList "# title".toList :=
  ⟨(downloadBundle_shape ⟨fun _ => true, fun _ => true, true⟩
      (fun t => some ("static/".toList ++ t ++ ".png".toList, [137, 80]))
      (fun md => md) "D".toList "![](t1) ![](t2)".toList ["t1".toList, "t2".toList]
      (fun t => "static/".toList ++ t ++ ".png".toList) (fun _ => [137, 80])
      (fun _ _ => rfl) (fun _ => rfl) (fun _ => rfl) rfl).1.trans (by decide),
   (downloadBundle_shape ⟨fun _ => true, fun _ => true, true⟩
      (fun t => some ("static/".toList ++ t ++ ".png".toList, [137, 80]))
      (fun md => md) "D".toList "# title".toList []
      (fun t => "static/".toList ++ t ++ ".png".toList) (fun _ => [137, 80])
      (fun _ _ => rfl) (fun _ => rfl) (fun _ => rfl) rfl).1.trans (by decide)⟩

/-- C13: the pre-code style reaches a `code` tag outside any `pre` element.  On
`<pre>a</pre><p><code>x</code></p>`, where no `code` tag lies between `<pre>` and
`</pre>`, the region pattern runs from `<pre>` over `</pre>` to the next `</code>`, and
`addInlineStyleToPreCode` with the default pre-code style returns the inline `code` tag
with that style instead of the input unchanged. -/
theorem addInlineStyleToPreCode_styles_inline_code :
    addInlineStyleToPreCode "<pre>a</pre><p><code>x</code></p>".toList defaultPreCodeStyle
      = "<pre>a</pre><p><code style=\"background-color: transparent; padding: 0; font-family: &#39;Consolas&#39;, &#39;Monaco&#39;, &#39;Courier New&#39;, monospace; font-size: 14px; color: #333333;\">x</code></p>".toList
    ∧ addInlineStyleToPreCode "<pre>a</pre><p><code>x</code></p>".toList defaultPreCodeStyle
      ≠ "<pre>a</pre><p><code>x</code></p>".toList := by
  set_option maxRecDepth 100000 in decide

/-- C14: with the default theme, the `code` tag of `<pre><code>x</code></pre>`, an input
without any style attribute, comes out of `convertToInlineStyles` with two `style`
attributes: the tag-level pass adds the `code` declaration and the pre-code pass adds
the pre-code declaration as a second attribute.  The output has three ` style=`
attributes on its two opening tags. -/
theorem convertToInlineStyles_two_style_attributes :
    convertToInlineStyles NewWeChatHTMLConverter "<pre><code>x</code></pre>".toList
      = "<pre style=\"background-color: #f5f5f5; padding: 15px; border-radius: 5px; overflow-x: auto; margin: 15px 0; font-size: 14px; line-height: 1.6; color: #333333;\"><code style=\"background-color: #f5f5f5; padding: 2px 6px; border-radius: 3px; font-family: &#39;Consolas&#39;, &#39;Monaco&#39;, &#39;Courier New&#39;, monospace; font-size: 14px; color: #e83e8c;\" style=\"background-color: transparent; padding: 0; font-family: &#39;Consolas&#39;, &#39;Monaco&#39;, &#39;Courier New&#39;, monospace; font-size: 14px; color: #333333;\">x</code></pre>".toList
    ∧ countOcc " style=".toList
        (convertToInlineStyles NewWeChatHTMLConverter "<pre><code>x</code></pre>".toList) = 3
    ∧ countOcc "<".toList
        (convertToInlineStyles NewWeChatHTMLConverter "<pre><code>x</code></pre>".toList) = 4 := by
  set_option maxRecDepth 100000 in decide

end Feishu2mp
